import Mathlib

/-! base58: a shallow embedding of `base58.go`

The Go package has three functions, `NewAlphabet`, `Encode` and `Decode`, and four
package-level alphabets.  They are embedded here as executable Lean functions.

Modelling conventions.

* A Go `string` is a Lean `String`; the conversion `[]rune(s)` is `String.toList`
  (the code points of the string) and `string(runes)` is `String.mk`.  A Go string
  holding bytes that are not UTF-8 is read by `[]rune` as if each such byte were
  U+FFFD, so it is represented by the string of the runes it converts to.
* A Go `[]byte` is a `List Nat` whose entries are `< 256`; every store into a byte
  buffer is written with the explicit truncation `% 256`.
* The `uint32` carry of `Encode` is a `Nat` reduced `% 2 ^ 32` after the multiply-add;
  the `int` carry of `Decode` is an `Int` wrapped to the width of the Go `int` type.
* A runtime abort (a failed bounds check, or the explicit `panic` of `NewAlphabet`)
  is the `Except.error` result of type `Fault`.
* The loop variable `outputIdx` runs from `capacity - 1` down to `-1`; the inner loops
  recurse on the natural number `outputIdx + 1`.
-/

namespace Base58

/-! ## Data model -/

/-- Runtime aborts of the Go program. -/
inductive Fault where
  | indexOutOfRange : Fault
  | abort (msg : String) : Fault
  deriving DecidableEq, Repr

/-- A Go `error` value made by `errors.New`: it carries its message. -/
structure GoError where
  msg : String
  deriving DecidableEq, Repr

/-- The package variable `Error_InvalidBase58String`. -/
def Error_InvalidBase58String : GoError := ⟨"invalid base58 string"⟩

/-- The struct `Alphabet`: its only field is the array `encodeTable [58]rune`. -/
structure Alphabet where
  encodeTable : List Char
  size_eq : encodeTable.length = 58

/-- The array read `alphabet.encodeTable[0]`, always in range. -/
def Alphabet.zero (alphabet : Alphabet) : Char :=
  alphabet.encodeTable.get ⟨0, by rw [alphabet.size_eq]; decide⟩

/-! ## NewAlphabet -/

/-- The zero value of the struct, as made by `new(Alphabet)`: 58 zero runes. -/
def Alphabet.zeroValue : Alphabet :=
  ⟨List.replicate 58 (Char.ofNat 0), List.length_replicate _ _⟩

/-- The array store `ret.encodeTable[idx] = r`. -/
def Alphabet.store (ret : Alphabet) (idx : Nat) (r : Char) : Alphabet :=
  ⟨ret.encodeTable.set idx r, (List.length_set _ _ _).trans ret.size_eq⟩

/-- The copy loop of `NewAlphabet`, `for idx := 0; idx < 58; idx++`, started on
`new(Alphabet)`.  In the branch that runs it the slice `alphabetRunes` has length 58,
so the read `alphabetRunes[idx]` is in range and the default of `getD` is never used. -/
def copyTable (alphabetRunes : List Char) : Alphabet :=
  (List.range 58).foldl
    (fun ret idx => ret.store idx (alphabetRunes.getD idx (Char.ofNat 0)))
    Alphabet.zeroValue

/-- The function `NewAlphabet`: it panics unless the string has 58 runes. -/
def NewAlphabet (alphabet : String) : Except Fault Alphabet :=
  let alphabetRunes := alphabet.toList
  if alphabetRunes.length ≠ 58 then
    .error (.abort ("Base58 Alphabet length must 58, but " ++ toString alphabetRunes.length))
  else
    .ok (copyTable alphabetRunes)

/-- The package variable `BitcoinAlphabet`. -/
def BitcoinAlphabet : Except Fault Alphabet :=
  NewAlphabet "123456789ABCDEFGHJKLMNPQRSTUVWXYZabcdefghijkmnopqrstuvwxyz"

/-- The package variable `IPFSAlphabet`. -/
def IPFSAlphabet : Except Fault Alphabet :=
  NewAlphabet "123456789ABCDEFGHJKLMNPQRSTUVWXYZabcdefghijkmnopqrstuvwxyz"

/-- The package variable `FlickrAlphabet`. -/
def FlickrAlphabet : Except Fault Alphabet :=
  NewAlphabet "123456789abcdefghijkmnopqrstuvwxyzABCDEFGHJKLMNPQRSTUVWXYZ"

/-- The package variable `RippleAlphabet`. -/
def RippleAlphabet : Except Fault Alphabet :=
  NewAlphabet "rpshnaf39wBUDNEGHJKLM4PQRST7VWXYZ2bcdeCg65jkm8oFqi1tuvAxyz"

/-! ## Encode -/

/-- The loop `for prefixZeroes < inputLength && input[prefixZeroes] == 0` of `Encode`:
the number of leading zero bytes. -/
def countZeroBytes : List Nat → Nat
  | [] => 0
  | x :: rest => if x = 0 then countZeroBytes rest + 1 else 0

/-- The inner loop of `Encode`,
`for ; carry != 0 || outputIdx > outputReverseEnd ; outputIdx--`.
The first explicit argument is `outputIdx + 1`; the result is the buffer and the final
`outputIdx`, which the caller stores in `outputReverseEnd`. -/
def encodeInner (outputReverseEnd : Int) : Nat → Nat → List Nat → Except Fault (List Nat × Int)
  | 0, carry, output =>
    if carry ≠ 0 ∨ (-1 : Int) > outputReverseEnd then .error .indexOutOfRange
    else .ok (output, -1)
  | idx + 1, carry, output =>
    if carry ≠ 0 ∨ (idx : Int) > outputReverseEnd then
      match output[idx]? with
      | none => .error .indexOutOfRange
      | some cell =>
        let carry1 := (carry + 256 * cell) % 2 ^ 32
        encodeInner outputReverseEnd idx (carry1 / 58) (output.set idx (carry1 % 58 % 256))
    else .ok (output, idx)

/-- The outer loop of `Encode`, `for inputPos := prefixZeroes; inputPos < inputLength`,
over the bytes `input[prefixZeroes:]`; the state is `(output, outputReverseEnd)`. -/
def encodeOuter (capacity : Nat) : List Nat → List Nat × Int → Except Fault (List Nat × Int)
  | [], st => .ok st
  | byte :: rest, (output, outputReverseEnd) =>
    match encodeInner outputReverseEnd capacity byte output with
    | .error e => .error e
    | .ok st => encodeOuter capacity rest st

/-- The last loop of `Encode`: each digit `output[i]` is looked up in the 58-entry
array `encodeTable`. -/
def encodeDigits (table : List Char) : List Nat → Except Fault (List Char)
  | [] => .ok []
  | d :: ds =>
    match table[d]? with
    | none => .error .indexOutOfRange
    | some r =>
      match encodeDigits table ds with
      | .error e => .error e
      | .ok rs => .ok (r :: rs)

/-- The function `Encode`. -/
def Encode (input : List Nat) (alphabet : Alphabet) : Except Fault String :=
  let prefixZeroes := countZeroBytes input
  let capacity := input.length * 138 / 100 + 1
  let output := List.replicate capacity 0
  match encodeOuter capacity (input.drop prefixZeroes) (output, (capacity : Int) - 1) with
  | .error e => .error e
  | .ok (output, outputReverseEnd) =>
    match encodeDigits alphabet.encodeTable (output.drop (outputReverseEnd + 1).toNat) with
    | .error e => .error e
    | .ok digits => .ok (String.mk (List.replicate prefixZeroes alphabet.zero ++ digits))

/-! ## Decode -/

/-- Two's-complement wrap of an integer to a signed machine word of `bits` bits. -/
def wrapInt (bits : Nat) (x : Int) : Int :=
  (x + 2 ^ (bits - 1)) % 2 ^ bits - 2 ^ (bits - 1)

/-- The loop `for prefixZeroes < inputLength && inputBytes[prefixZeroes] == zero58Byte`
of `Decode`: the number of leading zero symbols. -/
def countZeroSymbols (zero58Byte : Char) : List Char → Nat
  | [] => 0
  | c :: rest => if c = zero58Byte then countZeroSymbols zero58Byte rest + 1 else 0

/-- The scan `carry := -1; for i := 0; i < 58; i++ { if encodeTable[i] == c ... }`:
the first index holding `c`, counted from `i`, or `-1`. -/
def findSymbol (c : Char) : List Char → Nat → Int
  | [], _ => -1
  | x :: rest, i => if x = c then (i : Int) else findSymbol c rest (i + 1)

/-- The inner loop of `Decode`, with the `int` carry wrapped to `bits` bits.
The first explicit argument after `outputReverseEnd` is `outputIdx + 1`. -/
def decodeInner (bits : Nat) (outputReverseEnd : Int) :
    Nat → Int → List Nat → Except Fault (List Nat × Int)
  | 0, carry, output =>
    if carry ≠ 0 ∨ (-1 : Int) > outputReverseEnd then .error .indexOutOfRange
    else .ok (output, -1)
  | idx + 1, carry, output =>
    if carry ≠ 0 ∨ (idx : Int) > outputReverseEnd then
      match output[idx]? with
      | none => .error .indexOutOfRange
      | some cell =>
        let carry1 := wrapInt bits (carry + 58 * (cell : Int))
        decodeInner bits outputReverseEnd idx (Int.tdiv carry1 256)
          (output.set idx ((Int.tmod carry1 256) % 256).toNat)
    else .ok (output, idx)

/-- The outer loop of `Decode` over the runes `inputBytes[prefixZeroes:]`.  The inner
result `Except.error` of type `GoError` is the early `return nil, err`. -/
def decodeOuter (bits : Nat) (table : List Char) (capacity : Nat) :
    List Char → List Nat × Int → Except Fault (Except GoError (List Nat × Int))
  | [], st => .ok (.ok st)
  | c :: rest, (output, outputReverseEnd) =>
    let carry := findSymbol c table 0
    if carry = -1 then .ok (.error Error_InvalidBase58String)
    else
      match decodeInner bits outputReverseEnd capacity carry output with
      | .error e => .error e
      | .ok st => decodeOuter bits table capacity rest st

/-- The function `Decode` for a Go `int` of `bits` bits.  The result pair is the Go
return `([]byte, error)`: `none` in the first place is the `nil` slice, `none` in the
second the `nil` error. -/
def DecodeW (bits : Nat) (input : String) (alphabet : Alphabet) :
    Except Fault (Option (List Nat) × Option GoError) :=
  let inputBytes := input.toList
  let capacity := inputBytes.length * 733 / 1000 + 1
  let output := List.replicate capacity 0
  let zero58Byte := alphabet.zero
  let prefixZeroes := countZeroSymbols zero58Byte inputBytes
  match decodeOuter bits alphabet.encodeTable capacity (inputBytes.drop prefixZeroes)
      (output, (capacity : Int) - 1) with
  | .error e => .error e
  | .ok (.error err) => .ok (none, some err)
  | .ok (.ok (output, outputReverseEnd)) =>
    .ok (some (List.replicate prefixZeroes 0 ++ output.drop (outputReverseEnd + 1).toNat), none)

/-- The function `Decode` on a 64-bit platform. -/
def Decode (input : String) (alphabet : Alphabet) :
    Except Fault (Option (List Nat) × Option GoError) :=
  DecodeW 64 input alphabet

/-! ## Definitions used in the statements and proofs -/

/-- The value of a big-endian digit sequence, accumulated from `acc`. -/
def beValueFrom (base : Nat) (acc : Nat) (l : List Nat) : Nat :=
  l.foldl (fun v d => v * base + d) acc

/-- The value of a big-endian digit sequence in radix `base`. -/
def beValue (base : Nat) (l : List Nat) : Nat := beValueFrom base 0 l

/-- The canonical big-endian digits of `n` in radix `base`: most significant first,
no leading zero, empty for `n = 0`. -/
def beDigits (base n : Nat) : List Nat := (Nat.digits base n).reverse

/-- The table entry `encodeTable[d]` of an alphabet, for a digit `d < 58`. -/
def Alphabet.symbol (alphabet : Alphabet) (d : Nat) : Char :=
  alphabet.encodeTable.getD d alphabet.zero

/-- The base-58 digit of a character: the smallest index of the table holding it. -/
def digitOf (alphabet : Alphabet) (c : Char) : Nat := alphabet.encodeTable.indexOf c

/-- The inner loop of both conversions in exact arithmetic: multiplier `m` for the
input radix, divisor `b` for the output radix. -/
def radixInner (m b : Nat) (outputReverseEnd : Int) :
    Nat → Nat → List Nat → Except Fault (List Nat × Int)
  | 0, carry, output =>
    if carry ≠ 0 ∨ (-1 : Int) > outputReverseEnd then .error .indexOutOfRange
    else .ok (output, -1)
  | idx + 1, carry, output =>
    if carry ≠ 0 ∨ (idx : Int) > outputReverseEnd then
      match output[idx]? with
      | none => .error .indexOutOfRange
      | some cell =>
        radixInner m b outputReverseEnd idx ((carry + m * cell) / b)
          (output.set idx ((carry + m * cell) % b))
    else .ok (output, idx)

/-- One pass over a little-endian digit list: multiply by `m`, add the carry, and
append the digits of the final carry. -/
def passLE (m b : Nat) : Nat → List Nat → List Nat
  | c, [] => Nat.digits b c
  | c, d :: ds => (c + m * d) % b :: passLE m b ((c + m * d) / b) ds

/-! ## Logs of the conversion loops

The functions below are the loops of `Encode` and `Decode` again, with the same
control flow and the same updates, returning the list of the executions of the inner
loop body instead of the result: the index read and written, the carry on entry, the
cell read, and the value of the multiply-add before it is reduced to the machine
type.  A body execution whose index is out of range ends the log, as it ends the
program. -/

/-- One execution of the inner loop body of `Encode`. -/
structure EncodeStep where
  outputIdx : Nat
  carry : Nat
  cell : Nat
  sum : Nat
  deriving DecidableEq, Repr

/-- One execution of the inner loop body of `Decode`. -/
structure DecodeStep where
  outputIdx : Nat
  carry : Int
  cell : Nat
  sum : Int
  deriving DecidableEq, Repr

/-- The body executions of the inner loop of `Encode`. -/
def encodeInnerTrace (outputReverseEnd : Int) : Nat → Nat → List Nat → List EncodeStep
  | 0, _, _ => []
  | idx + 1, carry, output =>
    if carry ≠ 0 ∨ (idx : Int) > outputReverseEnd then
      match output[idx]? with
      | none => []
      | some cell =>
        let carry1 := (carry + 256 * cell) % 2 ^ 32
        ⟨idx, carry, cell, carry + 256 * cell⟩ ::
          encodeInnerTrace outputReverseEnd idx (carry1 / 58) (output.set idx (carry1 % 58 % 256))
    else []

/-- The body executions of the inner loop over the outer loop of `Encode`. -/
def encodeOuterTrace (capacity : Nat) : List Nat → List Nat × Int → List EncodeStep
  | [], _ => []
  | byte :: rest, (output, outputReverseEnd) =>
    encodeInnerTrace outputReverseEnd capacity byte output ++
      match encodeInner outputReverseEnd capacity byte output with
      | .error _ => []
      | .ok st => encodeOuterTrace capacity rest st

/-- The body executions of the inner loop in a call of `Encode`. -/
def EncodeTrace (input : List Nat) : List EncodeStep :=
  let prefixZeroes := countZeroBytes input
  let capacity := input.length * 138 / 100 + 1
  let output := List.replicate capacity 0
  encodeOuterTrace capacity (input.drop prefixZeroes) (output, (capacity : Int) - 1)

/-- The body executions of the inner loop of `Decode`. -/
def decodeInnerTrace (bits : Nat) (outputReverseEnd : Int) :
    Nat → Int → List Nat → List DecodeStep
  | 0, _, _ => []
  | idx + 1, carry, output =>
    if carry ≠ 0 ∨ (idx : Int) > outputReverseEnd then
      match output[idx]? with
      | none => []
      | some cell =>
        let carry1 := wrapInt bits (carry + 58 * (cell : Int))
        ⟨idx, carry, cell, carry + 58 * (cell : Int)⟩ ::
          decodeInnerTrace bits outputReverseEnd idx (Int.tdiv carry1 256)
            (output.set idx ((Int.tmod carry1 256) % 256).toNat)
    else []

/-- The body executions of the inner loop over the outer loop of `Decode`. -/
def decodeOuterTrace (bits : Nat) (table : List Char) (capacity : Nat) :
    List Char → List Nat × Int → List DecodeStep
  | [], _ => []
  | c :: rest, (output, outputReverseEnd) =>
    let carry := findSymbol c table 0
    if carry = -1 then []
    else
      decodeInnerTrace bits outputReverseEnd capacity carry output ++
        match decodeInner bits outputReverseEnd capacity carry output with
        | .error _ => []
        | .ok st => decodeOuterTrace bits table capacity rest st

/-- The body executions of the inner loop in a call of `Decode`. -/
def DecodeTrace (bits : Nat) (input : String) (alphabet : Alphabet) : List DecodeStep :=
  let inputBytes := input.toList
  let capacity := inputBytes.length * 733 / 1000 + 1
  let output := List.replicate capacity 0
  let zero58Byte := alphabet.zero
  let prefixZeroes := countZeroSymbols zero58Byte inputBytes
  decodeOuterTrace bits alphabet.encodeTable capacity (inputBytes.drop prefixZeroes)
    (output, (capacity : Int) - 1)

/-! ## The two functions in exact arithmetic

`EncodeExact` and `DecodeExact` are `Encode` and `Decode` with the carry computed in
unbounded integers: the inner loop is `radixInner`, with no reduction of the
multiply-add to the machine type. -/

/-- The outer loop of `Encode` in exact arithmetic. -/
def encodeOuterExact (capacity : Nat) :
    List Nat → List Nat × Int → Except Fault (List Nat × Int)
  | [], st => .ok st
  | byte :: rest, (output, outputReverseEnd) =>
    match radixInner 256 58 outputReverseEnd capacity byte output with
    | .error e => .error e
    | .ok st => encodeOuterExact capacity rest st

/-- The function `Encode` in exact arithmetic. -/
def EncodeExact (input : List Nat) (alphabet : Alphabet) : Except Fault String :=
  let prefixZeroes := countZeroBytes input
  let capacity := input.length * 138 / 100 + 1
  let output := List.replicate capacity 0
  match encodeOuterExact capacity (input.drop prefixZeroes) (output, (capacity : Int) - 1) with
  | .error e => .error e
  | .ok (output, outputReverseEnd) =>
    match encodeDigits alphabet.encodeTable (output.drop (outputReverseEnd + 1).toNat) with
    | .error e => .error e
    | .ok digits => .ok (String.mk (List.replicate prefixZeroes alphabet.zero ++ digits))

/-- The outer loop of `Decode` in exact arithmetic. -/
def decodeOuterExact (table : List Char) (capacity : Nat) :
    List Char → List Nat × Int → Except Fault (Except GoError (List Nat × Int))
  | [], st => .ok (.ok st)
  | c :: rest, (output, outputReverseEnd) =>
    let carry := findSymbol c table 0
    if carry = -1 then .ok (.error Error_InvalidBase58String)
    else
      match radixInner 58 256 outputReverseEnd capacity carry.toNat output with
      | .error e => .error e
      | .ok st => decodeOuterExact table capacity rest st

/-- The function `Decode` in exact arithmetic. -/
def DecodeExact (input : String) (alphabet : Alphabet) :
    Except Fault (Option (List Nat) × Option GoError) :=
  let inputBytes := input.toList
  let capacity := inputBytes.length * 733 / 1000 + 1
  let output := List.replicate capacity 0
  let zero58Byte := alphabet.zero
  let prefixZeroes := countZeroSymbols zero58Byte inputBytes
  match decodeOuterExact alphabet.encodeTable capacity (inputBytes.drop prefixZeroes)
      (output, (capacity : Int) - 1) with
  | .error e => .error e
  | .ok (.error err) => .ok (none, some err)
  | .ok (.ok (output, outputReverseEnd)) =>
    .ok (some (List.replicate prefixZeroes 0 ++ output.drop (outputReverseEnd + 1).toNat), none)

/-! ## One pass of the conversion -/

theorem getElem?_mid {α : Type} (l : List α) (x : α) (r : List α) (i : Nat)
    (h : l.length = i) : (l ++ x :: r)[i]? = some x := by
  subst h
  rw [List.getElem?_append_right (le_refl _)]
  simp

theorem set_mid {α : Type} (l : List α) (x v : α) (r : List α) (i : Nat)
    (h : l.length = i) : (l ++ x :: r).set i v = l ++ v :: r := by
  subst h
  simp

theorem passLE_digits (m b : Nat) (hm : 0 < m) (hb : 1 < b) (v : Nat) :
    ∀ c, passLE m b c (Nat.digits b v) = Nat.digits b (c + m * v) := by
  induction v using Nat.strong_induction_on with
  | _ v ih =>
    intro c
    rcases Nat.eq_zero_or_pos v with h0 | hpos
    · subst h0
      simp [passLE]
    · have hv : 0 < c + m * v := by positivity
      rw [Nat.digits_def' hb hpos, Nat.digits_def' hb hv, passLE,
        ih (v / b) (Nat.div_lt_self hpos hb)]
      have hdecomp : c + m * v = (c + m * (v % b)) + b * (m * (v / b)) := by
        conv_lhs => rw [← Nat.mod_add_div v b]
        ring
      congr 1
      · rw [hdecomp, Nat.add_mul_mod_self_left]
      · rw [hdecomp, Nat.add_mul_div_left _ _ (by omega : 0 < b)]

/-- Extension phase: left of the written region the cells are zero and the loop runs
while the carry is nonzero, writing the digits of the carry. -/
theorem radixInner_ext (m b : Nat) (hb : 1 < b) (e : Int) :
    ∀ (z c k : Nat) (done : List Nat), (z : Int) - 1 ≤ e →
      k + (Nat.digits b c).length = z →
      radixInner m b e z c (List.replicate z 0 ++ done)
        = .ok (List.replicate k 0 ++ ((Nat.digits b c).reverse ++ done), (k : Int) - 1) := by
  intro z
  induction z with
  | zero =>
    intro c k done he hk
    have hk0 : k = 0 := by omega
    have hlen : (Nat.digits b c).length = 0 := by omega
    have hc : c = 0 := by
      have := List.length_eq_zero.mp hlen
      exact Nat.digits_eq_nil_iff_eq_zero.mp this
    subst hk0 hc
    have : ¬ ((-1 : Int) > e) := by omega
    simp [radixInner, this]
  | succ z ih =>
    intro c k done he hk
    rcases Nat.eq_zero_or_pos c with h0 | hpos
    · subst h0
      have hkz : k = z + 1 := by simpa using hk
      subst hkz
      have : ¬ ((z : Int) > e) := by omega
      simp [radixInner, this]
    · have hc : c ≠ 0 := by omega
      rw [Nat.digits_def' hb hpos] at hk ⊢
      simp only [List.length_cons] at hk
      have hrep : List.replicate (z + 1) 0 ++ done = List.replicate z 0 ++ 0 :: done := by
        rw [List.replicate_succ']; simp
      rw [radixInner, if_pos (Or.inl hc), hrep,
        getElem?_mid _ _ _ _ (List.length_replicate z 0)]
      simp only [Nat.mul_zero, Nat.add_zero]
      rw [set_mid _ _ _ _ _ (List.length_replicate z 0),
        ih (c / b) k (c % b :: done) (by omega) (by omega)]
      simp

/-- Region phase followed by the extension phase: one whole pass. -/
theorem radixInner_pass (m b : Nat) (hb : 1 < b) :
    ∀ (r : List Nat) (z c k : Nat) (done : List Nat),
      k + (passLE m b c r).length = z + r.length →
      radixInner m b ((z : Int) - 1) (z + r.length) c (List.replicate z 0 ++ (r.reverse ++ done))
        = .ok (List.replicate k 0 ++ ((passLE m b c r).reverse ++ done), (k : Int) - 1) := by
  intro r
  induction r with
  | nil =>
    intro z c k done hk
    simpa [passLE] using radixInner_ext m b hb ((z : Int) - 1) z c k done (le_refl _)
      (by simpa [passLE] using hk)
  | cons d ds ih =>
    intro z c k done hk
    simp only [passLE, List.length_cons] at hk
    have hcond : ((z + ds.length : Nat) : Int) > (z : Int) - 1 := by omega
    have hbuf : List.replicate z 0 ++ ((d :: ds).reverse ++ done)
        = (List.replicate z 0 ++ ds.reverse) ++ d :: done := by simp
    have hlen : (List.replicate z (0 : Nat) ++ ds.reverse).length = z + ds.length := by simp
    rw [show z + (d :: ds).length = (z + ds.length) + 1 from rfl, radixInner,
      if_pos (Or.inr hcond), hbuf, getElem?_mid _ _ _ _ hlen]
    simp only
    rw [set_mid _ _ _ _ _ hlen, List.append_assoc,
      ih z ((c + m * d) / b) k ((c + m * d) % b :: done) (by omega)]
    simp [passLE]

/-! ## Big-endian values -/

theorem beValueFrom_cons (base acc d : Nat) (l : List Nat) :
    beValueFrom base acc (d :: l) = beValueFrom base (acc * base + d) l := rfl

theorem le_beValueFrom (base : Nat) (hb : 0 < base) (l : List Nat) :
    ∀ acc, acc ≤ beValueFrom base acc l := by
  induction l with
  | nil => intro acc; exact le_refl _
  | cons d ds ih =>
    intro acc
    rw [beValueFrom_cons]
    refine le_trans ?_ (ih _)
    nlinarith [Nat.mul_le_mul_left acc hb]

theorem beValueFrom_lt (base : Nat) (l : List Nat) (hl : ∀ x ∈ l, x < base) :
    ∀ acc n, acc < base ^ n → beValueFrom base acc l < base ^ (n + l.length) := by
  induction l with
  | nil => intro acc n h; simpa [beValueFrom] using h
  | cons d ds ih =>
    intro acc n h
    rw [beValueFrom_cons]
    have hd : d < base := hl d (List.mem_cons_self _ _)
    have hstep : acc * base + d < base ^ (n + 1) := by
      rw [pow_succ]
      nlinarith [Nat.mul_le_mul_right base (Nat.succ_le_of_lt h)]
    have := ih (fun x hx => hl x (List.mem_cons_of_mem _ hx)) _ (n + 1) hstep
    simpa [Nat.add_assoc, Nat.add_comm 1] using this

theorem beValue_lt (base : Nat) (l : List Nat) (hl : ∀ x ∈ l, x < base) :
    beValue base l < base ^ l.length := by
  have := beValueFrom_lt base l hl 0 0 (by simp)
  simpa [beValue] using this

theorem beValueFrom_eq_ofDigits (base : Nat) (l : List Nat) :
    ∀ acc, beValueFrom base acc l = Nat.ofDigits base (l.reverse ++ [acc]) := by
  induction l with
  | nil => intro acc; simp [beValueFrom]
  | cons d ds ih =>
    intro acc
    rw [beValueFrom_cons, ih, List.reverse_cons, List.append_assoc, Nat.ofDigits_append,
      Nat.ofDigits_append]
    simp only [Nat.ofDigits_singleton, Nat.ofDigits_cons, Nat.ofDigits_nil,
      List.singleton_append]
    ring

theorem beValue_eq_ofDigits (base : Nat) (l : List Nat) :
    beValue base l = Nat.ofDigits base l.reverse := by
  rw [beValue, beValueFrom_eq_ofDigits]
  simp [Nat.ofDigits_append]

theorem digits_length_le_of_lt_pow (b : Nat) (hb : 1 < b) (n cap : Nat) (h : n < b ^ cap) :
    (Nat.digits b n).length ≤ cap := by
  by_contra hlt
  push_neg at hlt
  have hn : n ≠ 0 := by
    rintro rfl
    simp at hlt
  have h1 := Nat.base_pow_length_digits_le b n hb hn
  have h2 : b ^ (cap + 1) ≤ b ^ (Nat.digits b n).length :=
    Nat.pow_le_pow_right (by omega) hlt
  have h3 : b * n < b ^ (cap + 1) := by
    rw [pow_succ, Nat.mul_comm]
    exact Nat.mul_lt_mul_of_pos_right h (by omega)
  omega

/-! ## The loops of Encode -/

theorem encodeInner_eq_radixInner (e : Int) :
    ∀ (j c : Nat) (out : List Nat), c < 256 → (∀ x ∈ out, x < 58) →
      encodeInner e j c out = radixInner 256 58 e j c out := by
  intro j
  induction j with
  | zero => intro c out _ _; rfl
  | succ j ih =>
    intro c out hc hout
    rw [encodeInner, radixInner]
    by_cases hcond : c ≠ 0 ∨ (j : Int) > e
    · rw [if_pos hcond, if_pos hcond]
      cases hcell : out[j]? with
      | none => rfl
      | some cell =>
        have hlt : cell < 58 := hout cell (List.getElem?_mem hcell)
        have hwrap : (c + 256 * cell) % 2 ^ 32 = c + 256 * cell := by omega
        have hbyte : (c + 256 * cell) % 58 % 256 = (c + 256 * cell) % 58 := by omega
        simp only [hwrap, hbyte]
        apply ih
        · omega
        · intro x hx
          rcases List.mem_or_eq_of_mem_set hx with h | h
          · exact hout x h
          · omega
    · rw [if_neg hcond, if_neg hcond]

theorem encodeOuter_spec (cap : Nat) :
    ∀ (bs : List Nat) (v k : Nat), (∀ x ∈ bs, x < 256) →
      k + (Nat.digits 58 v).length = cap →
      beValueFrom 256 v bs < 58 ^ cap →
      ∃ k2, k2 + (Nat.digits 58 (beValueFrom 256 v bs)).length = cap ∧
        encodeOuter cap bs (List.replicate k 0 ++ beDigits 58 v, (k : Int) - 1)
          = .ok (List.replicate k2 0 ++ beDigits 58 (beValueFrom 256 v bs), (k2 : Int) - 1) := by
  intro bs
  induction bs with
  | nil =>
    intro v k _ hk _
    exact ⟨k, hk, rfl⟩
  | cons x rest ih =>
    intro v k hbs hk hlt
    have hx : x < 256 := hbs x (List.mem_cons_self _ _)
    have hcells : ∀ y ∈ List.replicate k 0 ++ beDigits 58 v, y < 58 := by
      intro y hy
      rcases List.mem_append.mp hy with h | h
      · rw [List.eq_of_mem_replicate h]; decide
      · exact Nat.digits_lt_base (by decide) (List.mem_reverse.mp h)
    have hv1 : v * 256 + x < 58 ^ cap :=
      lt_of_le_of_lt (le_beValueFrom 256 (by decide) rest _) hlt
    have hpass : passLE 256 58 x (Nat.digits 58 v) = Nat.digits 58 (v * 256 + x) := by
      rw [passLE_digits 256 58 (by decide) (by decide)]
      congr 1
      ring
    have hlen := digits_length_le_of_lt_pow 58 (by decide) _ cap hv1
    obtain ⟨k1, hk1⟩ : ∃ k1, k1 + (Nat.digits 58 (v * 256 + x)).length = cap :=
      ⟨cap - (Nat.digits 58 (v * 256 + x)).length, by omega⟩
    have hinner := radixInner_pass 256 58 (by decide) (Nat.digits 58 v) k x k1 []
      (by rw [hpass]; omega)
    rw [hk, hpass] at hinner
    simp only [List.append_nil] at hinner
    obtain ⟨k2, hk2, hrest⟩ := ih (v * 256 + x) k1
      (fun y hy => hbs y (List.mem_cons_of_mem _ hy)) hk1 hlt
    refine ⟨k2, hk2, ?_⟩
    rw [encodeOuter, encodeInner_eq_radixInner _ _ _ _ hx hcells]
    unfold beDigits at hrest ⊢
    rw [hinner]
    exact hrest

theorem encode_capacity (n : Nat) : 256 ^ n ≤ 58 ^ (n * 138 / 100 + 1) := by
  have h100 : (256 ^ n) ^ 100 ≤ (58 ^ (n * 138 / 100 + 1)) ^ 100 := by
    calc (256 ^ n) ^ 100 = (256 ^ 100) ^ n := by rw [← pow_mul, ← pow_mul, Nat.mul_comm]
      _ ≤ (58 ^ 138) ^ n := Nat.pow_le_pow_left (by norm_num) n
      _ = 58 ^ (138 * n) := by rw [← pow_mul]
      _ ≤ 58 ^ ((n * 138 / 100 + 1) * 100) := Nat.pow_le_pow_right (by decide) (by omega)
      _ = (58 ^ (n * 138 / 100 + 1)) ^ 100 := by rw [← pow_mul]
  exact (Nat.pow_le_pow_iff_left (by decide)).mp h100

theorem countZeroBytes_append (z : Nat) (rest : List Nat) (h : rest.head? ≠ some 0) :
    countZeroBytes (List.replicate z 0 ++ rest) = z := by
  induction z with
  | zero =>
    cases rest with
    | nil => rfl
    | cons x xs =>
      have hx : x ≠ 0 := by simpa using h
      simp [countZeroBytes, hx]
  | succ z ih => simp [List.replicate_succ, countZeroBytes, ih]

theorem encodeDigits_eq (alphabet : Alphabet) :
    ∀ ds : List Nat, (∀ d ∈ ds, d < 58) →
      encodeDigits alphabet.encodeTable ds = .ok (ds.map alphabet.symbol) := by
  intro ds
  induction ds with
  | nil => intro _; rfl
  | cons d ds ih =>
    intro h
    have hd : d < alphabet.encodeTable.length := by
      rw [alphabet.size_eq]; exact h d (List.mem_cons_self _ _)
    rw [encodeDigits, List.getElem?_eq_getElem hd, ih (fun x hx => h x (List.mem_cons_of_mem _ hx))]
    simp [Alphabet.symbol, List.getD_eq_getElem?_getD, List.getElem?_eq_getElem hd]

theorem beDigits_lt (base : Nat) (hb : 1 < base) (n : Nat) : ∀ d ∈ beDigits base n, d < base :=
  fun _ hd => Nat.digits_lt_base hb (List.mem_reverse.mp hd)

/-- What `Encode` computes, for an input split into its zero bytes and the rest. -/
theorem Encode_eq (alphabet : Alphabet) (z : Nat) (rest : List Nat)
    (hhead : rest.head? ≠ some 0) (hrest : ∀ x ∈ rest, x < 256) :
    Encode (List.replicate z 0 ++ rest) alphabet
      = .ok (String.mk (List.replicate z alphabet.zero
          ++ (beDigits 58 (beValue 256 rest)).map alphabet.symbol)) := by
  have hcap : ∃ cap, cap = (List.replicate z 0 ++ rest).length * 138 / 100 + 1 := ⟨_, rfl⟩
  obtain ⟨cap, hcapeq⟩ := hcap
  have hlt : beValueFrom 256 0 rest < 58 ^ cap := by
    have h1 := beValue_lt 256 rest hrest
    have h2 : 256 ^ rest.length ≤ 256 ^ (List.replicate z 0 ++ rest).length :=
      Nat.pow_le_pow_right (by decide) (by simp)
    rw [hcapeq]
    exact lt_of_lt_of_le h1 (le_trans h2 (encode_capacity _))
  have hlen0 : cap + (Nat.digits 58 0).length = cap := by simp
  obtain ⟨k2, -, hout⟩ := encodeOuter_spec cap rest 0 cap hrest hlen0 hlt
  have hdrop : (List.replicate z 0 ++ rest).drop z = rest := by
    simp
  have hzero : beDigits 58 0 = [] := by simp [beDigits]
  rw [hzero, List.append_nil] at hout
  unfold Encode
  simp only [countZeroBytes_append z rest hhead, hdrop, ← hcapeq]
  rw [hout]
  simp only
  have hk : ((k2 : Int) - 1 + 1).toNat = k2 := by omega
  rw [hk, List.drop_left' (List.length_replicate k2 0),
    encodeDigits_eq alphabet _ (beDigits_lt 58 (by decide) _)]
  rfl

/-! ## The loops of Decode -/

theorem wrapInt_eq (bits : Nat) (hbits : 32 ≤ bits) (x : Int) (h0 : 0 ≤ x)
    (h1 : x < 2 ^ 31) : wrapInt bits x = x := by
  obtain ⟨n, rfl⟩ : ∃ n, bits = n + 1 := ⟨bits - 1, by omega⟩
  have hp : (2 : Int) ^ 31 ≤ 2 ^ n := pow_le_pow_right₀ (by norm_num) (by omega)
  unfold wrapInt
  rw [Nat.add_sub_cancel, pow_succ, Int.emod_eq_of_lt (by omega) (by omega)]
  omega

theorem decodeInner_eq_radixInner (bits : Nat) (hbits : 32 ≤ bits) (e : Int) :
    ∀ (j c : Nat) (out : List Nat), c < 58 → (∀ x ∈ out, x < 256) →
      decodeInner bits e j (c : Int) out = radixInner 58 256 e j c out := by
  intro j
  induction j with
  | zero =>
    intro c out _ _
    simp [decodeInner, radixInner]
  | succ j ih =>
    intro c out hc hout
    rw [decodeInner, radixInner]
    have hiff : ((c : Int) ≠ 0 ∨ (j : Int) > e) ↔ (c ≠ 0 ∨ (j : Int) > e) := by
      simp
    by_cases hcond : c ≠ 0 ∨ (j : Int) > e
    · rw [if_pos (hiff.mpr hcond), if_pos hcond]
      cases hcell : out[j]? with
      | none => rfl
      | some cell =>
        have hlt : cell < 256 := hout cell (List.getElem?_mem hcell)
        have hwrap : wrapInt bits ((c : Int) + 58 * (cell : Int))
            = ((c + 58 * cell : Nat) : Int) := by
          rw [wrapInt_eq bits hbits _ (by omega) (by omega)]
          push_cast
          rfl
        have hdiv : Int.tdiv ((c + 58 * cell : Nat) : Int) 256
            = (((c + 58 * cell) / 256 : Nat) : Int) := (Int.ofNat_tdiv _ 256).symm
        have hmod : ((Int.tmod ((c + 58 * cell : Nat) : Int) 256) % 256).toNat
            = (c + 58 * cell) % 256 := by
          rw [show Int.tmod ((c + 58 * cell : Nat) : Int) 256
            = (((c + 58 * cell) % 256 : Nat) : Int) from (Int.ofNat_tmod _ 256).symm]
          omega
        simp only [hwrap, hdiv, hmod]
        apply ih
        · omega
        · intro x hx
          rcases List.mem_or_eq_of_mem_set hx with h | h
          · exact hout x h
          · omega
    · rw [if_neg (fun h => hcond (hiff.mp h)), if_neg hcond]

theorem findSymbol_eq (c : Char) :
    ∀ (table : List Char) (i : Nat),
      findSymbol c table i = if c ∈ table then ((i + table.indexOf c : Nat) : Int) else -1 := by
  intro table
  induction table with
  | nil => intro i; simp [findSymbol]
  | cons x xs ih =>
    intro i
    rw [findSymbol]
    by_cases hx : x = c
    · subst hx
      simp
    · have hx2 : ¬ c = x := fun h => hx h.symm
      rw [if_neg hx, ih, List.indexOf_cons_ne _ hx]
      simp only [List.mem_cons, hx2, false_or]
      split
      · congr 1
        omega
      · rfl

set_option exponentiation.threshold 1000 in
theorem decode_capacity (n : Nat) : 58 ^ n ≤ 256 ^ (n * 733 / 1000 + 1) := by
  have h1000 : (58 ^ n) ^ 1000 ≤ (256 ^ (n * 733 / 1000 + 1)) ^ 1000 := by
    calc (58 ^ n) ^ 1000 = (58 ^ 1000) ^ n := by rw [← pow_mul, ← pow_mul, Nat.mul_comm]
      _ ≤ (256 ^ 733) ^ n := Nat.pow_le_pow_left (by norm_num) n
      _ = 256 ^ (733 * n) := by rw [← pow_mul]
      _ ≤ 256 ^ ((n * 733 / 1000 + 1) * 1000) := Nat.pow_le_pow_right (by decide) (by omega)
      _ = (256 ^ (n * 733 / 1000 + 1)) ^ 1000 := by rw [← pow_mul]
  exact (Nat.pow_le_pow_iff_left (by decide)).mp h1000

theorem decodeOuter_spec (bits : Nat) (hbits : 32 ≤ bits) (alphabet : Alphabet) (cap : Nat)
    (more : List Char) :
    ∀ (cs : List Char) (v k : Nat), (∀ c ∈ cs, c ∈ alphabet.encodeTable) →
      k + (Nat.digits 256 v).length = cap →
      beValueFrom 58 v (cs.map (digitOf alphabet)) < 256 ^ cap →
      ∃ k2, k2 + (Nat.digits 256 (beValueFrom 58 v (cs.map (digitOf alphabet)))).length = cap ∧
        decodeOuter bits alphabet.encodeTable cap (cs ++ more)
            (List.replicate k 0 ++ beDigits 256 v, (k : Int) - 1)
          = decodeOuter bits alphabet.encodeTable cap more
            (List.replicate k2 0 ++ beDigits 256 (beValueFrom 58 v (cs.map (digitOf alphabet))),
              (k2 : Int) - 1) := by
  intro cs
  induction cs with
  | nil =>
    intro v k _ hk _
    exact ⟨k, hk, rfl⟩
  | cons c rest ih =>
    intro v k hcs hk hlt
    have hc : c ∈ alphabet.encodeTable := hcs c (List.mem_cons_self _ _)
    have hidx : digitOf alphabet c < 58 := by
      rw [← alphabet.size_eq]
      exact List.indexOf_lt_length.mpr hc
    have hfind : findSymbol c alphabet.encodeTable 0 = ((digitOf alphabet c : Nat) : Int) := by
      rw [findSymbol_eq, if_pos hc, Nat.zero_add]
      rfl
    have hne : ¬ ((digitOf alphabet c : Nat) : Int) = -1 := by omega
    have hcells : ∀ y ∈ List.replicate k 0 ++ beDigits 256 v, y < 256 := by
      intro y hy
      rcases List.mem_append.mp hy with h | h
      · rw [List.eq_of_mem_replicate h]; decide
      · exact Nat.digits_lt_base (by decide) (List.mem_reverse.mp h)
    rw [List.map_cons, beValueFrom_cons] at hlt ⊢
    have hv1 : v * 58 + digitOf alphabet c < 256 ^ cap :=
      lt_of_le_of_lt (le_beValueFrom 58 (by decide) _ _) hlt
    have hpass : passLE 58 256 (digitOf alphabet c) (Nat.digits 256 v)
        = Nat.digits 256 (v * 58 + digitOf alphabet c) := by
      rw [passLE_digits 58 256 (by decide) (by decide)]
      congr 1
      ring
    have hlen := digits_length_le_of_lt_pow 256 (by decide) _ cap hv1
    obtain ⟨k1, hk1⟩ : ∃ k1, k1 + (Nat.digits 256 (v * 58 + digitOf alphabet c)).length = cap :=
      ⟨cap - (Nat.digits 256 (v * 58 + digitOf alphabet c)).length, by omega⟩
    have hinner := radixInner_pass 58 256 (by decide) (Nat.digits 256 v) k
      (digitOf alphabet c) k1 [] (by rw [hpass]; omega)
    rw [hk, hpass] at hinner
    simp only [List.append_nil] at hinner
    obtain ⟨k2, hk2, hrest⟩ := ih (v * 58 + digitOf alphabet c) k1
      (fun y hy => hcs y (List.mem_cons_of_mem _ hy)) hk1 hlt
    refine ⟨k2, hk2, ?_⟩
    rw [List.cons_append, decodeOuter]
    simp only [hfind, if_neg hne]
    rw [decodeInner_eq_radixInner bits hbits _ _ _ _ hidx hcells]
    unfold beDigits at hrest ⊢
    rw [hinner]
    exact hrest

theorem countZeroSymbols_append (zero : Char) (z : Nat) (rest : List Char)
    (h : rest.head? ≠ some zero) :
    countZeroSymbols zero (List.replicate z zero ++ rest) = z := by
  induction z with
  | zero =>
    cases rest with
    | nil => rfl
    | cons x xs =>
      have hx : x ≠ zero := by simpa using h
      simp [countZeroSymbols, hx]
  | succ z ih => simp [List.replicate_succ, countZeroSymbols, ih]

theorem zero_mem (alphabet : Alphabet) : alphabet.zero ∈ alphabet.encodeTable :=
  List.get_mem _ _ _

/-- The state of `Decode` when its outer loop has consumed the run `good` of valid
characters that follows the zero symbols. -/
theorem DecodeW_consume (bits : Nat) (hbits : 32 ≤ bits) (alphabet : Alphabet) (z : Nat)
    (good more : List Char) (hgood : ∀ c ∈ good, c ∈ alphabet.encodeTable) :
    ∃ k2, decodeOuter bits alphabet.encodeTable
          ((List.replicate z alphabet.zero ++ (good ++ more)).length * 733 / 1000 + 1)
          (good ++ more)
          (List.replicate
            ((List.replicate z alphabet.zero ++ (good ++ more)).length * 733 / 1000 + 1) 0,
            (((List.replicate z alphabet.zero ++ (good ++ more)).length * 733 / 1000 + 1 : Nat)
              : Int) - 1)
        = decodeOuter bits alphabet.encodeTable
          ((List.replicate z alphabet.zero ++ (good ++ more)).length * 733 / 1000 + 1) more
          (List.replicate k2 0 ++ beDigits 256 (beValue 58 (good.map (digitOf alphabet))),
            (k2 : Int) - 1) := by
  obtain ⟨cap, hcapeq⟩ : ∃ cap,
    cap = (List.replicate z alphabet.zero ++ (good ++ more)).length * 733 / 1000 + 1 := ⟨_, rfl⟩
  rw [← hcapeq]
  have hdig : ∀ x ∈ good.map (digitOf alphabet), x < 58 := by
    intro x hx
    obtain ⟨c, hc, rfl⟩ := List.mem_map.mp hx
    rw [← alphabet.size_eq]
    exact List.indexOf_lt_length.mpr (hgood c hc)
  have hlt : beValueFrom 58 0 (good.map (digitOf alphabet)) < 256 ^ cap := by
    have h1 := beValue_lt 58 _ hdig
    have h2 : 58 ^ (good.map (digitOf alphabet)).length
        ≤ 58 ^ (List.replicate z alphabet.zero ++ (good ++ more)).length :=
      Nat.pow_le_pow_right (by decide) (by simp; omega)
    rw [hcapeq]
    exact lt_of_lt_of_le h1 (le_trans h2 (decode_capacity _))
  have hlen0 : cap + (Nat.digits 256 0).length = cap := by simp
  obtain ⟨k2, -, hout⟩ := decodeOuter_spec bits hbits alphabet cap more good 0 cap hgood hlen0 hlt
  have hzero : beDigits 256 0 = [] := by simp [beDigits]
  rw [hzero, List.append_nil] at hout
  exact ⟨k2, hout⟩

/-! ## What Decode computes -/

/-- Success: every character after the zero symbols is in the table. -/
theorem DecodeW_ok (bits : Nat) (hbits : 32 ≤ bits) (alphabet : Alphabet) (s : String)
    (z : Nat) (rest : List Char) (hs : s.toList = List.replicate z alphabet.zero ++ rest)
    (hhead : rest.head? ≠ some alphabet.zero) (hrest : ∀ c ∈ rest, c ∈ alphabet.encodeTable) :
    DecodeW bits s alphabet
      = .ok (some (List.replicate z 0
          ++ beDigits 256 (beValue 58 (rest.map (digitOf alphabet)))), none) := by
  obtain ⟨k2, hout⟩ := DecodeW_consume bits hbits alphabet z rest [] hrest
  simp only [List.append_nil] at hout
  unfold DecodeW
  simp only [hs, countZeroSymbols_append alphabet.zero z rest hhead]
  have hdrop : (List.replicate z alphabet.zero ++ rest).drop z = rest := by simp
  rw [hdrop, hout, decodeOuter]
  simp only
  have hk : ((k2 : Int) - 1 + 1).toNat = k2 := by omega
  rw [hk, List.drop_left' (List.length_replicate k2 0)]

/-- Failure: the first character outside the table ends the call with the sentinel. -/
theorem DecodeW_err (bits : Nat) (hbits : 32 ≤ bits) (alphabet : Alphabet) (s : String)
    (z : Nat) (good : List Char) (bad : Char) (tail : List Char)
    (hs : s.toList = List.replicate z alphabet.zero ++ (good ++ bad :: tail))
    (hhead : (good ++ bad :: tail).head? ≠ some alphabet.zero)
    (hgood : ∀ c ∈ good, c ∈ alphabet.encodeTable) (hbad : bad ∉ alphabet.encodeTable) :
    DecodeW bits s alphabet = .ok (none, some Error_InvalidBase58String) := by
  obtain ⟨k2, hout⟩ := DecodeW_consume bits hbits alphabet z good (bad :: tail) hgood
  unfold DecodeW
  simp only [hs, countZeroSymbols_append alphabet.zero z _ hhead]
  have hdrop : (List.replicate z alphabet.zero ++ (good ++ bad :: tail)).drop z
      = good ++ bad :: tail := by simp
  have hfind : findSymbol bad alphabet.encodeTable 0 = -1 := by
    rw [findSymbol_eq, if_neg hbad]
  rw [hdrop, hout, decodeOuter]
  simp only [hfind, if_true]

theorem split_zero_symbols (zero : Char) (l : List Char) :
    ∃ z rest, l = List.replicate z zero ++ rest ∧ rest.head? ≠ some zero := by
  induction l with
  | nil => exact ⟨0, [], rfl, by simp⟩
  | cons c cs ih =>
    by_cases hc : c = zero
    · obtain ⟨z, rest, h1, h2⟩ := ih
      exact ⟨z + 1, rest, by rw [h1, hc, List.replicate_succ]; rfl, h2⟩
    · exact ⟨0, c :: cs, rfl, by simpa using hc⟩

theorem split_zero_bytes (l : List Nat) :
    ∃ z rest, l = List.replicate z 0 ++ rest ∧ rest.head? ≠ some 0 := by
  induction l with
  | nil => exact ⟨0, [], rfl, by simp⟩
  | cons c cs ih =>
    by_cases hc : c = 0
    · obtain ⟨z, rest, h1, h2⟩ := ih
      exact ⟨z + 1, rest, by rw [h1, hc, List.replicate_succ]; rfl, h2⟩
    · exact ⟨0, c :: cs, rfl, by simpa using hc⟩

theorem split_first_bad (table : List Char) (l : List Char) (h : ∃ c ∈ l, c ∉ table) :
    ∃ good bad tail, l = good ++ bad :: tail ∧ (∀ c ∈ good, c ∈ table) ∧ bad ∉ table := by
  induction l with
  | nil => simp at h
  | cons c cs ih =>
    by_cases hc : c ∈ table
    · have h2 : ∃ c ∈ cs, c ∉ table := by
        obtain ⟨x, hx, hxt⟩ := h
        rcases List.mem_cons.mp hx with rfl | hx
        · exact absurd hc hxt
        · exact ⟨x, hx, hxt⟩
      obtain ⟨good, bad, tail, h1, h3, h4⟩ := ih h2
      refine ⟨c :: good, bad, tail, by rw [h1]; rfl, ?_, h4⟩
      intro x hx
      rcases List.mem_cons.mp hx with rfl | hx
      · exact hc
      · exact h3 x hx
    · exact ⟨[], c, cs, rfl, by simp, hc⟩

/-- Every call of `Decode` returns: with the sentinel and a `nil` slice when some
character is outside the table, with bytes and a `nil` error otherwise. -/
theorem DecodeW_total (bits : Nat) (hbits : 32 ≤ bits) (alphabet : Alphabet) (s : String) :
    ((∃ c ∈ s.toList, c ∉ alphabet.encodeTable) ∧
        DecodeW bits s alphabet = .ok (none, some Error_InvalidBase58String)) ∨
      ((∀ c ∈ s.toList, c ∈ alphabet.encodeTable) ∧
        ∃ bytes, DecodeW bits s alphabet = .ok (some bytes, none)) := by
  obtain ⟨z, rest, hs, hhead⟩ := split_zero_symbols alphabet.zero s.toList
  by_cases hbad : ∃ c ∈ s.toList, c ∉ alphabet.encodeTable
  · left
    refine ⟨hbad, ?_⟩
    have hbad2 : ∃ c ∈ rest, c ∉ alphabet.encodeTable := by
      obtain ⟨c, hc, hct⟩ := hbad
      rw [hs] at hc
      rcases List.mem_append.mp hc with h | h
      · rw [List.eq_of_mem_replicate h] at hct
        exact absurd (zero_mem alphabet) hct
      · exact ⟨c, h, hct⟩
    obtain ⟨good, bad, tail, h1, h2, h3⟩ := split_first_bad _ rest hbad2
    subst h1
    exact DecodeW_err bits hbits alphabet s z good bad tail hs hhead h2 h3
  · right
    push_neg at hbad
    refine ⟨hbad, _, DecodeW_ok bits hbits alphabet s z rest hs hhead ?_⟩
    intro c hc
    exact hbad c (by rw [hs]; exact List.mem_append_right _ hc)

/-! ## Canonical digits and the alphabet table -/

theorem beValue_beDigits (base n : Nat) : beValue base (beDigits base n) = n := by
  rw [beValue_eq_ofDigits, beDigits, List.reverse_reverse, Nat.ofDigits_digits]

theorem beDigits_zero (base : Nat) : beDigits base 0 = [] := by
  simp [beDigits]

theorem beDigits_head (base n : Nat) : (beDigits base n).head? ≠ some 0 := by
  rw [beDigits, List.head?_reverse]
  by_cases hn : n = 0
  · subst hn
    simp
  · have hne : Nat.digits base n ≠ [] := Nat.digits_ne_nil_iff_ne_zero.mpr hn
    rw [List.getLast?_eq_getLast _ hne]
    intro h
    exact Nat.getLast_digit_ne_zero base hn (Option.some.inj h)

theorem beDigits_beValue (base : Nat) (hb : 1 < base) (l : List Nat)
    (hl : ∀ x ∈ l, x < base) (hhead : l.head? ≠ some 0) :
    beDigits base (beValue base l) = l := by
  rw [beDigits, beValue_eq_ofDigits, Nat.digits_ofDigits base hb l.reverse
    (fun x hx => hl x (List.mem_reverse.mp hx)), List.reverse_reverse]
  intro hne
  rw [List.getLast_reverse]
  intro h0
  apply hhead
  rw [← h0]
  exact List.head?_eq_head _

theorem zero_eq_symbol (alphabet : Alphabet) : alphabet.zero = alphabet.symbol 0 := by
  have h0 : 0 < alphabet.encodeTable.length := by rw [alphabet.size_eq]; decide
  simp [Alphabet.symbol, Alphabet.zero, List.getD_eq_getElem?_getD, List.getElem?_eq_getElem h0]

theorem symbol_eq_getElem (alphabet : Alphabet) (d : Nat) (hd : d < alphabet.encodeTable.length) :
    alphabet.symbol d = alphabet.encodeTable[d] := by
  simp [Alphabet.symbol, List.getD_eq_getElem?_getD, List.getElem?_eq_getElem hd]

theorem symbol_mem (alphabet : Alphabet) (d : Nat) (hd : d < 58) :
    alphabet.symbol d ∈ alphabet.encodeTable := by
  have hd2 : d < alphabet.encodeTable.length := by rw [alphabet.size_eq]; exact hd
  rw [symbol_eq_getElem alphabet d hd2]
  exact List.getElem_mem _

theorem digitOf_symbol (alphabet : Alphabet) (hnodup : alphabet.encodeTable.Nodup) (d : Nat)
    (hd : d < 58) : digitOf alphabet (alphabet.symbol d) = d := by
  have hd2 : d < alphabet.encodeTable.length := by rw [alphabet.size_eq]; exact hd
  rw [symbol_eq_getElem alphabet d hd2]
  exact List.indexOf_getElem hnodup d hd2

theorem symbol_ne_zero (alphabet : Alphabet) (hnodup : alphabet.encodeTable.Nodup) (d : Nat)
    (hd : d < 58) (h0 : d ≠ 0) : alphabet.symbol d ≠ alphabet.zero := by
  intro h
  have h1 := digitOf_symbol alphabet hnodup d hd
  rw [h, zero_eq_symbol, digitOf_symbol alphabet hnodup 0 (by decide)] at h1
  exact h0 h1.symm

theorem map_symbol_head (alphabet : Alphabet) (hnodup : alphabet.encodeTable.Nodup)
    (ds : List Nat) (hds : ∀ d ∈ ds, d < 58) (hhead : ds.head? ≠ some 0) :
    (ds.map alphabet.symbol).head? ≠ some alphabet.zero := by
  cases ds with
  | nil => simp
  | cons d rest =>
    have hd0 : d ≠ 0 := by simpa using hhead
    have := symbol_ne_zero alphabet hnodup d (hds d (List.mem_cons_self _ _)) hd0
    simpa using this

theorem map_digitOf_symbol (alphabet : Alphabet) (hnodup : alphabet.encodeTable.Nodup)
    (ds : List Nat) (hds : ∀ d ∈ ds, d < 58) :
    (ds.map alphabet.symbol).map (digitOf alphabet) = ds := by
  induction ds with
  | nil => rfl
  | cons d rest ih =>
    rw [List.map_cons, List.map_cons, digitOf_symbol alphabet hnodup d (hds d (List.mem_cons_self _ _)),
      ih (fun x hx => hds x (List.mem_cons_of_mem _ hx))]

/-- Decoding an encoding gives the bytes back, for a table without repetition. -/
theorem DecodeW_Encode (bits : Nat) (hbits : 32 ≤ bits) (alphabet : Alphabet)
    (hnodup : alphabet.encodeTable.Nodup) (b : List Nat) (hb : ∀ x ∈ b, x < 256) :
    ∃ s, Encode b alphabet = .ok s ∧ DecodeW bits s alphabet = .ok (some b, none) := by
  obtain ⟨z, rest, hsplit, hhead⟩ := split_zero_bytes b
  subst hsplit
  have hrest : ∀ x ∈ rest, x < 256 := fun x hx => hb x (List.mem_append_right _ hx)
  refine ⟨_, Encode_eq alphabet z rest hhead hrest, ?_⟩
  have hds := beDigits_lt 58 (by decide) (beValue 256 rest)
  rw [DecodeW_ok bits hbits alphabet _ z _ rfl
    (map_symbol_head alphabet hnodup _ hds (beDigits_head 58 _))
    (fun c hc => by
      obtain ⟨d, hd, rfl⟩ := List.mem_map.mp hc
      exact symbol_mem alphabet d (hds d hd)),
    map_digitOf_symbol alphabet hnodup _ hds, beValue_beDigits,
    beDigits_beValue 256 (by decide) rest hrest hhead]

/-! ## NewAlphabet -/

theorem foldl_set_range {α : Type} (d0 : α) (l : List α) :
    ∀ n, n ≤ l.length →
      (List.range n).foldl (fun t idx => t.set idx (l.getD idx d0)) (List.replicate l.length d0)
        = l.take n ++ List.replicate (l.length - n) d0 := by
  intro n
  induction n with
  | zero => intro _; simp
  | succ n ih =>
    intro hn
    have hn2 : n < l.length := hn
    rw [List.range_succ, List.foldl_append, ih (by omega)]
    simp only [List.foldl_cons, List.foldl_nil]
    have hrep : List.replicate (l.length - n) d0 = d0 :: List.replicate (l.length - (n + 1)) d0 := by
      rw [show l.length - n = (l.length - (n + 1)) + 1 by omega, List.replicate_succ]
    have hlen : (l.take n).length = n := by simp; omega
    have htake : l.take (n + 1) = l.take n ++ [l[n]] := by
      rw [List.take_succ, List.getElem?_eq_getElem hn2]
      rfl
    have hget : l.getD n d0 = l[n] := by
      simp [List.getD_eq_getElem?_getD, List.getElem?_eq_getElem hn2]
    rw [hrep, set_mid _ _ _ _ _ hlen, htake, hget, List.append_assoc]
    rfl

theorem encodeTable_foldl_store (f : Nat → Char) (idxs : List Nat) :
    ∀ ret : Alphabet,
      (idxs.foldl (fun ret idx => ret.store idx (f idx)) ret).encodeTable
        = idxs.foldl (fun t idx => t.set idx (f idx)) ret.encodeTable := by
  induction idxs with
  | nil => intro ret; rfl
  | cons i is ih =>
    intro ret
    rw [List.foldl_cons, List.foldl_cons, ih]
    rfl

theorem copyTable_eq (runes : List Char) (h : runes.length = 58) :
    (copyTable runes).encodeTable = runes := by
  have := foldl_set_range (Char.ofNat 0) runes 58 (by omega)
  rw [h] at this
  unfold copyTable
  rw [encodeTable_foldl_store (fun idx => runes.getD idx (Char.ofNat 0))]
  show List.foldl _ (List.replicate 58 (Char.ofNat 0)) _ = _
  rw [this, ← h]
  simp

theorem NewAlphabet_ok (a : String) (h : a.toList.length = 58) :
    ∃ alphabet, NewAlphabet a = .ok alphabet ∧ alphabet.encodeTable = a.toList := by
  refine ⟨copyTable a.toList, ?_, copyTable_eq a.toList h⟩
  unfold NewAlphabet
  dsimp only
  rw [if_neg (not_not.mpr h)]

theorem NewAlphabet_abort (a : String) (h : a.toList.length ≠ 58) :
    NewAlphabet a
      = .error (.abort ("Base58 Alphabet length must 58, but " ++ toString a.toList.length)) := by
  unfold NewAlphabet
  dsimp only
  rw [if_pos h]

/-! ## Helper facts for the statements below -/

theorem Decode_eq_DecodeW (s : String) (alphabet : Alphabet) :
    Decode s alphabet = DecodeW 64 s alphabet := rfl

theorem predefined_nodup :
    ∀ P ∈ [BitcoinAlphabet, IPFSAlphabet, FlickrAlphabet, RippleAlphabet],
      ∃ alphabet, P = .ok alphabet ∧ alphabet.encodeTable.Nodup := by
  intro P hP
  simp only [List.mem_cons, List.mem_singleton, List.not_mem_nil, or_false] at hP
  rcases hP with rfl | rfl | rfl | rfl
  · obtain ⟨A, h1, h2⟩ := NewAlphabet_ok
      "123456789ABCDEFGHJKLMNPQRSTUVWXYZabcdefghijkmnopqrstuvwxyz" (by decide)
    exact ⟨A, h1, by rw [h2]; decide⟩
  · obtain ⟨A, h1, h2⟩ := NewAlphabet_ok
      "123456789ABCDEFGHJKLMNPQRSTUVWXYZabcdefghijkmnopqrstuvwxyz" (by decide)
    exact ⟨A, h1, by rw [h2]; decide⟩
  · obtain ⟨A, h1, h2⟩ := NewAlphabet_ok
      "123456789abcdefghijkmnopqrstuvwxyzABCDEFGHJKLMNPQRSTUVWXYZ" (by decide)
    exact ⟨A, h1, by rw [h2]; decide⟩
  · obtain ⟨A, h1, h2⟩ := NewAlphabet_ok
      "rpshnaf39wBUDNEGHJKLM4PQRST7VWXYZ2bcdeCg65jkm8oFqi1tuvAxyz" (by decide)
    exact ⟨A, h1, by rw [h2]; decide⟩

theorem split_takeWhile_bytes (b : List Nat) :
    b = List.replicate (b.takeWhile (· == 0)).length 0 ++ b.dropWhile (· == 0) ∧
      (b.dropWhile (· == 0)).head? ≠ some 0 := by
  induction b with
  | nil => simp
  | cons x xs ih =>
    by_cases hx : x = 0
    · subst hx
      obtain ⟨h1, h2⟩ := ih
      refine ⟨?_, by simpa using h2⟩
      simp only [List.takeWhile_cons, List.dropWhile_cons, beq_self_eq_true, if_true,
        List.length_cons, List.replicate_succ, List.cons_append]
      rw [← h1]
    · have : (x == 0) = false := by simpa using hx
      simp [List.takeWhile_cons, List.dropWhile_cons, this, hx]

theorem split_takeWhile_symbols (zero : Char) (l : List Char) :
    l = List.replicate (l.takeWhile (· == zero)).length zero ++ l.dropWhile (· == zero) ∧
      (l.dropWhile (· == zero)).head? ≠ some zero := by
  induction l with
  | nil => simp
  | cons x xs ih =>
    by_cases hx : x = zero
    · subst hx
      obtain ⟨h1, h2⟩ := ih
      refine ⟨?_, by simpa using h2⟩
      simp only [List.takeWhile_cons, List.dropWhile_cons, beq_self_eq_true, if_true,
        List.length_cons, List.replicate_succ, List.cons_append]
      rw [← h1]
    · have : (x == zero) = false := by simpa using hx
      simp [List.takeWhile_cons, List.dropWhile_cons, this, hx]

theorem takeWhile_replicate_append (zero : Char) (z : Nat) (rest : List Char)
    (h : rest.head? ≠ some zero) :
    ((List.replicate z zero ++ rest).takeWhile (· == zero)).length = z := by
  induction z with
  | zero =>
    cases rest with
    | nil => rfl
    | cons x xs =>
      have hx : x ≠ zero := by simpa using h
      simp [List.takeWhile_cons, hx]
  | succ z ih =>
    rw [List.replicate_succ, List.cons_append, List.takeWhile_cons]
    simp only [beq_self_eq_true, if_true, List.length_cons, ih]

theorem digitOf_spec (alphabet : Alphabet) (c : Char) (hc : c ∈ alphabet.encodeTable) :
    alphabet.encodeTable[digitOf alphabet c]? = some c ∧
      ∀ j, j < digitOf alphabet c → alphabet.encodeTable[j]? ≠ some c := by
  have hlt : digitOf alphabet c < alphabet.encodeTable.length := List.indexOf_lt_length.mpr hc
  refine ⟨?_, ?_⟩
  · rw [List.getElem?_eq_getElem hlt]
    exact congrArg some (List.getElem_indexOf hlt)
  · intro j hj
    have hj2 : j < alphabet.encodeTable.length := lt_trans hj hlt
    rw [List.getElem?_eq_getElem hj2]
    intro h
    have hp := @List.not_of_lt_findIdx Char (· == c) alphabet.encodeTable j hj
    rw [Option.some.inj h] at hp
    simp at hp

/-! ## The claims -/

/-- C1: for every byte sequence `b` and every alphabet whose 58 characters are pairwise
distinct, in particular each of the four predefined alphabets, `Decode(Encode(b, A), A)`
returns `b` with a nil error. -/
theorem Decode_Encode_roundtrip (b : List Nat) (hb : ∀ x ∈ b, x < 256) :
    (∀ A : Alphabet, A.encodeTable.Nodup →
      ∃ s, Encode b A = .ok s ∧ Decode s A = .ok (some b, none)) ∧
    (∀ P ∈ [BitcoinAlphabet, IPFSAlphabet, FlickrAlphabet, RippleAlphabet],
      ∃ A, P = .ok A ∧ ∃ s, Encode b A = .ok s ∧ Decode s A = .ok (some b, none)) := by
  refine ⟨fun A hA => DecodeW_Encode 64 (by decide) A hA b hb, ?_⟩
  intro P hP
  obtain ⟨A, h1, h2⟩ := predefined_nodup P hP
  exact ⟨A, h1, DecodeW_Encode 64 (by decide) A h2 b hb⟩

/-- Witness of C1 at the bytes `[0, 0, 104, 105]`. -/
theorem Decode_Encode_roundtrip_witness :
    (∀ x ∈ [0, 0, 104, 105], x < 256) ∧
    ((∀ A : Alphabet, A.encodeTable.Nodup →
      ∃ s, Encode [0, 0, 104, 105] A = .ok s ∧ Decode s A = .ok (some [0, 0, 104, 105], none)) ∧
    (∀ P ∈ [BitcoinAlphabet, IPFSAlphabet, FlickrAlphabet, RippleAlphabet],
      ∃ A, P = .ok A ∧
        ∃ s, Encode [0, 0, 104, 105] A = .ok s ∧
          Decode s A = .ok (some [0, 0, 104, 105], none))) :=
  ⟨by decide, Decode_Encode_roundtrip [0, 0, 104, 105] (by decide)⟩

/-- C2: with `Z` the number of leading zero bytes of `b` and `n` the big-endian base-256
value of the bytes after them, `Encode(b, A)` is `Z` copies of `A[0]` followed by `A[d]`
for each digit `d` of the canonical base-58 representation of `n`, most significant
first: digits below 58 whose value is `n`, no leading zero digit, none at all for zero. -/
theorem Encode_canonical (b : List Nat) (A : Alphabet) (hb : ∀ x ∈ b, x < 256) :
    Encode b A = .ok (String.mk (List.replicate (b.takeWhile (· == 0)).length A.zero
        ++ (beDigits 58 (beValue 256 (b.dropWhile (· == 0)))).map A.symbol)) ∧
    beValue 58 (beDigits 58 (beValue 256 (b.dropWhile (· == 0))))
      = beValue 256 (b.dropWhile (· == 0)) ∧
    (∀ d ∈ beDigits 58 (beValue 256 (b.dropWhile (· == 0))),
      d < 58 ∧ A.encodeTable[d]? = some (A.symbol d)) ∧
    (beDigits 58 (beValue 256 (b.dropWhile (· == 0)))).head? ≠ some 0 ∧
    beDigits 58 0 = [] := by
  obtain ⟨hsplit, hhead⟩ := split_takeWhile_bytes b
  have hrest : ∀ x ∈ b.dropWhile (· == 0), x < 256 := by
    intro x hx
    exact hb x (by rw [hsplit]; exact List.mem_append_right _ hx)
  refine ⟨?_, beValue_beDigits _ _, ?_, beDigits_head _ _, beDigits_zero _⟩
  · have h := Encode_eq A (b.takeWhile (· == 0)).length (b.dropWhile (· == 0)) hhead hrest
    rw [← hsplit] at h
    exact h
  · intro d hd
    have hd58 := beDigits_lt 58 (by decide) _ d hd
    have hd2 : d < A.encodeTable.length := by rw [A.size_eq]; exact hd58
    exact ⟨hd58, by rw [symbol_eq_getElem A d hd2, List.getElem?_eq_getElem hd2]⟩

/-- Witness of C2 at the bytes `[0, 0, 255, 1]` and the Bitcoin table. -/
theorem Encode_canonical_witness :
    (∀ x ∈ [0, 0, 255, 1], x < 256) ∧
    ∃ A, BitcoinAlphabet = .ok A ∧
      Encode [0, 0, 255, 1] A
        = .ok (String.mk (List.replicate ([0, 0, 255, 1].takeWhile (· == 0)).length A.zero
          ++ (beDigits 58 (beValue 256 ([0, 0, 255, 1].dropWhile (· == 0)))).map A.symbol)) :=
  ⟨by decide,
    copyTable "123456789ABCDEFGHJKLMNPQRSTUVWXYZabcdefghijkmnopqrstuvwxyz".toList, rfl,
    (Encode_canonical [0, 0, 255, 1]
      (copyTable "123456789ABCDEFGHJKLMNPQRSTUVWXYZabcdefghijkmnopqrstuvwxyz".toList)
      (by decide)).1⟩

/-- C3: for a string `s` all of whose characters occur in `A`, with `Z` the number of
leading occurrences of `A[0]` and `n` the base-58 value of the remaining characters,
each read as the smallest table index holding it, `Decode(s, A)` returns, with a nil
error, `Z` zero bytes followed by the big-endian base-256 representation of `n`: bytes
below 256 whose value is `n`, no leading zero byte, none at all for zero. -/
theorem Decode_canonical (s : String) (A : Alphabet)
    (hs : ∀ c ∈ s.toList, c ∈ A.encodeTable) :
    Decode s A = .ok (some (List.replicate (s.toList.takeWhile (· == A.zero)).length 0
        ++ beDigits 256 (beValue 58 ((s.toList.dropWhile (· == A.zero)).map (digitOf A)))),
      none) ∧
    (∀ c ∈ s.toList, A.encodeTable[digitOf A c]? = some c ∧
      ∀ j, j < digitOf A c → A.encodeTable[j]? ≠ some c) ∧
    beValue 256 (beDigits 256 (beValue 58 ((s.toList.dropWhile (· == A.zero)).map (digitOf A))))
      = beValue 58 ((s.toList.dropWhile (· == A.zero)).map (digitOf A)) ∧
    (∀ x ∈ beDigits 256 (beValue 58 ((s.toList.dropWhile (· == A.zero)).map (digitOf A))),
      x < 256) ∧
    (beDigits 256 (beValue 58 ((s.toList.dropWhile (· == A.zero)).map (digitOf A)))).head?
      ≠ some 0 ∧
    beDigits 256 0 = [] := by
  obtain ⟨hsplit, hhead⟩ := split_takeWhile_symbols A.zero s.toList
  have hrest : ∀ c ∈ s.toList.dropWhile (· == A.zero), c ∈ A.encodeTable := by
    intro c hc
    exact hs c (by rw [hsplit]; exact List.mem_append_right _ hc)
  exact ⟨DecodeW_ok 64 (by decide) A s _ _ hsplit hhead hrest,
    fun c hc => digitOf_spec A c (hs c hc), beValue_beDigits _ _,
    beDigits_lt 256 (by decide) _, beDigits_head _ _, beDigits_zero _⟩

/-- Witness of C3 at the string `"11zz"` and the Bitcoin table. -/
theorem Decode_canonical_witness :
    ∃ A, BitcoinAlphabet = .ok A ∧ (∀ c ∈ "11zz".toList, c ∈ A.encodeTable) ∧
      Decode "11zz" A
        = .ok (some (List.replicate ("11zz".toList.takeWhile (· == A.zero)).length 0
            ++ beDigits 256
              (beValue 58 (("11zz".toList.dropWhile (· == A.zero)).map (digitOf A)))),
          none) :=
  ⟨copyTable "123456789ABCDEFGHJKLMNPQRSTUVWXYZabcdefghijkmnopqrstuvwxyz".toList, rfl,
    by decide,
    (Decode_canonical "11zz"
      (copyTable "123456789ABCDEFGHJKLMNPQRSTUVWXYZabcdefghijkmnopqrstuvwxyz".toList)
      (by decide)).1⟩

/-- C4: `Decode(s, A)` returns a non-nil error exactly when `s` contains a character
that is not among the 58 table characters of `A`, and that error is
`Error_InvalidBase58String`, whose message is "invalid base58 string". -/
theorem Decode_error_iff (s : String) (A : Alphabet) :
    ∃ r, Decode s A = .ok r ∧
      (r.2 ≠ none ↔ ∃ c ∈ s.toList, c ∉ A.encodeTable) ∧
      (r.2 = none ∨ r.2 = some Error_InvalidBase58String) ∧
      Error_InvalidBase58String.msg = "invalid base58 string" := by
  rcases DecodeW_total 64 (by decide) A s with ⟨hbad, h⟩ | ⟨hgood, bytes, h⟩
  · exact ⟨_, h, ⟨fun _ => hbad, fun _ => by simp⟩, Or.inr rfl, rfl⟩
  · refine ⟨_, h, ⟨fun hne => absurd rfl hne, ?_⟩, Or.inl rfl, rfl⟩
    rintro ⟨c, hc, hct⟩
    exact absurd (hgood c hc) hct

/-- C5: whenever `Decode(s, A)` fails, the byte result it returns is nil. -/
theorem Decode_error_nil (s : String) (A : Alphabet) (r : Option (List Nat) × Option GoError)
    (h : Decode s A = .ok r) (herr : r.2 ≠ none) : r.1 = none := by
  rcases DecodeW_total 64 (by decide) A s with ⟨-, h2⟩ | ⟨-, bytes, h2⟩
  · rw [Decode_eq_DecodeW, h2] at h
    rw [← Except.ok.inj h]
  · rw [Decode_eq_DecodeW, h2] at h
    rw [← Except.ok.inj h] at herr
    exact absurd rfl herr

/-- Witness of C5 at `"2z0z"`: the valid prefix `"2z"` is converted before the
character `0`, which is not in the Bitcoin table, is met. -/
theorem Decode_error_nil_witness :
    ∃ A, BitcoinAlphabet = .ok A ∧
      Decode "2z0z" A = .ok (none, some Error_InvalidBase58String) ∧
      ((none : Option (List Nat)), some Error_InvalidBase58String).2 ≠ none ∧
      ((none : Option (List Nat)), some Error_InvalidBase58String).1 = none :=
  ⟨copyTable "123456789ABCDEFGHJKLMNPQRSTUVWXYZabcdefghijkmnopqrstuvwxyz".toList, rfl, rfl, by simp,
    Decode_error_nil "2z0z"
      (copyTable "123456789ABCDEFGHJKLMNPQRSTUVWXYZabcdefghijkmnopqrstuvwxyz".toList)
      _ rfl (by simp)⟩

/-- C6: for an alphabet with pairwise distinct characters, the number of leading
occurrences of `A[0]` in `Encode(b, A)` is exactly the number of leading zero bytes
of `b`: the character after that run, when there is one, is not `A[0]`. -/
theorem Encode_leading_zero_count (b : List Nat) (A : Alphabet)
    (hA : A.encodeTable.Nodup) (hb : ∀ x ∈ b, x < 256) :
    ∃ s, Encode b A = .ok s ∧
      (s.toList.takeWhile (· == A.zero)).length = (b.takeWhile (· == 0)).length ∧
      (s.toList.take (b.takeWhile (· == 0)).length
        = List.replicate (b.takeWhile (· == 0)).length A.zero) ∧
      (s.toList.drop (b.takeWhile (· == 0)).length).head? ≠ some A.zero := by
  obtain ⟨hsplit, hhead⟩ := split_takeWhile_bytes b
  have hrest : ∀ x ∈ b.dropWhile (· == 0), x < 256 := by
    intro x hx
    exact hb x (by rw [hsplit]; exact List.mem_append_right _ hx)
  have h := Encode_eq A (b.takeWhile (· == 0)).length (b.dropWhile (· == 0)) hhead hrest
  rw [← hsplit] at h
  have hsym := map_symbol_head A hA _ (beDigits_lt 58 (by decide) (beValue 256 (b.dropWhile (· == 0))))
    (beDigits_head 58 _)
  refine ⟨_, h, takeWhile_replicate_append A.zero _ _ hsym, ?_, ?_⟩
  · exact List.take_left' (List.length_replicate _ _)
  · rw [show (String.mk (List.replicate (b.takeWhile (· == 0)).length A.zero
        ++ (beDigits 58 (beValue 256 (b.dropWhile (· == 0)))).map A.symbol)).toList
        = List.replicate (b.takeWhile (· == 0)).length A.zero
        ++ (beDigits 58 (beValue 256 (b.dropWhile (· == 0)))).map A.symbol from rfl,
      List.drop_left' (List.length_replicate _ _)]
    exact hsym

/-- Witness of C6 at the bytes `[0, 0, 7, 0]` and the Ripple table. -/
theorem Encode_leading_zero_count_witness :
    (∀ x ∈ [0, 0, 7, 0], x < 256) ∧
    ∃ A, RippleAlphabet = .ok A ∧ A.encodeTable.Nodup ∧
      ∃ s, Encode [0, 0, 7, 0] A = .ok s ∧
        (s.toList.takeWhile (· == A.zero)).length = ([0, 0, 7, 0].takeWhile (· == 0)).length ∧
        (s.toList.take ([0, 0, 7, 0].takeWhile (· == 0)).length
          = List.replicate ([0, 0, 7, 0].takeWhile (· == 0)).length A.zero) ∧
        (s.toList.drop ([0, 0, 7, 0].takeWhile (· == 0)).length).head? ≠ some A.zero :=
  ⟨by decide,
    copyTable "rpshnaf39wBUDNEGHJKLM4PQRST7VWXYZ2bcdeCg65jkm8oFqi1tuvAxyz".toList, rfl,
    by decide,
    Encode_leading_zero_count [0, 0, 7, 0]
      (copyTable "rpshnaf39wBUDNEGHJKLM4PQRST7VWXYZ2bcdeCg65jkm8oFqi1tuvAxyz".toList)
      (by decide) (by decide)⟩

/-- C7 as stated fails: with the Bitcoin table `Encode([0,0,0,1])` is `"1112"`, three
zero symbols before `Encode([1]) = "2"`, not two. -/
theorem Encode_0001_two_zero_symbols_fails :
    ∃ A, BitcoinAlphabet = .ok A ∧
      Encode [0, 0, 0, 1] A = .ok "1112" ∧ Encode [1] A = .ok "2" ∧
      ("1112".toList.takeWhile (· == A.zero)).length = 3 ∧
      Encode [0, 0, 0, 1] A
        ≠ (Encode [1] A).map (fun s => String.mk (A.zero :: A.zero :: s.toList)) := by
  refine ⟨copyTable "123456789ABCDEFGHJKLMNPQRSTUVWXYZabcdefghijkmnopqrstuvwxyz".toList, rfl, rfl, rfl, by decide, ?_⟩
  intro h
  have h2 : (Except.ok "1112" : Except Fault String) = .ok "112" := h
  exact absurd (Except.ok.inj h2) (by decide)

/-- C7 amended: for every alphabet, `Encode([0,0,0,1], A)` is three zero symbols, one
for each leading zero byte, followed by the encoding of `[1]`, which is the single
character `A[1]`; the run of leading zero symbols has length three unless `A[1] = A[0]`. -/
theorem Encode_0001_three_zero_symbols (A : Alphabet) :
    Encode [0, 0, 0, 1] A
      = (Encode [1] A).map (fun s => String.mk (A.zero :: A.zero :: A.zero :: s.toList)) ∧
    Encode [1] A = .ok (String.mk [A.symbol 1]) ∧
    Encode [0, 0, 0, 1] A = .ok (String.mk [A.zero, A.zero, A.zero, A.symbol 1]) ∧
    ([A.zero, A.zero, A.zero, A.symbol 1].takeWhile (· == A.zero)).length
      = if A.symbol 1 = A.zero then 4 else 3 := by
  have hdig : beDigits 58 (beValue 256 [1]) = [1] := by
    rw [show beValue 256 [1] = 1 from rfl, beDigits, Nat.digits_of_lt 58 1 (by decide) (by decide)]
    rfl
  have h1 : Encode [1] A = .ok (String.mk [A.symbol 1]) := by
    have h := Encode_eq A 0 [1] (by decide) (by decide)
    rw [hdig] at h
    exact h
  have h3 : Encode [0, 0, 0, 1] A = .ok (String.mk [A.zero, A.zero, A.zero, A.symbol 1]) := by
    have h := Encode_eq A 3 [1] (by decide) (by decide)
    rw [hdig] at h
    exact h
  refine ⟨by rw [h1, h3]; rfl, h1, h3, ?_⟩
  by_cases h : A.symbol 1 = A.zero
  · simp [List.takeWhile_cons, h]
  · simp [List.takeWhile_cons, h]

/-- C8: `Encode` of `L` zero bytes is the string of exactly `L` copies of `A[0]`; in
particular `Encode([], A)` is the empty string, and with the Bitcoin alphabet
`Encode([0]) = "1"` and `Encode([0,0]) = "11"`. -/
theorem Encode_all_zero (L : Nat) (A : Alphabet) :
    Encode (List.replicate L 0) A = .ok (String.mk (List.replicate L A.zero)) ∧
    (String.mk (List.replicate L A.zero)).length = L ∧
    Encode [] A = .ok "" ∧
    ∃ B, BitcoinAlphabet = .ok B ∧ Encode [0] B = .ok "1" ∧ Encode [0, 0] B = .ok "11" := by
  have hdig : beDigits 58 (beValue 256 []) = [] := beDigits_zero 58
  have hall : ∀ n, Encode (List.replicate n 0) A = .ok (String.mk (List.replicate n A.zero)) := by
    intro n
    have h := Encode_eq A n [] (by simp) (by simp)
    rw [hdig] at h
    simpa using h
  refine ⟨hall L, by simp [String.length], hall 0, ?_⟩
  exact ⟨copyTable "123456789ABCDEFGHJKLMNPQRSTUVWXYZabcdefghijkmnopqrstuvwxyz".toList,
    rfl, rfl, rfl⟩

/-- C9: `Decode` of the string made of `L` copies of `A[0]` returns exactly `L` zero
bytes with a nil error; in particular `Decode("", A)` returns the empty byte sequence
with a nil error. -/
theorem Decode_all_zero (L : Nat) (A : Alphabet) :
    Decode (String.mk (List.replicate L A.zero)) A = .ok (some (List.replicate L 0), none) ∧
    (List.replicate L (0 : Nat)).length = L ∧
    Decode "" A = .ok (some [], none) := by
  have hall : ∀ n, Decode (String.mk (List.replicate n A.zero)) A
      = .ok (some (List.replicate n 0), none) := by
    intro n
    have h := DecodeW_ok 64 (by decide) A (String.mk (List.replicate n A.zero)) n []
      (by simp) (by simp) (by simp)
    rw [Decode_eq_DecodeW, h]
    simp [beValue, beValueFrom, beDigits_zero]
  exact ⟨hall L, by simp, hall 0⟩

/-- C10: `NewAlphabet(a)` aborts exactly when the number of code points of `a`, not its
number of bytes, differs from 58; otherwise the table it returns holds at each index
`i` the `i`-th code point of `a`.  There is no uniqueness check: a string of 58 equal
characters is accepted. -/
theorem NewAlphabet_spec (a : String) :
    ((∃ e, NewAlphabet a = .error e) ↔ a.length ≠ 58) ∧
    ((NewAlphabet a).toOption.map Alphabet.encodeTable
      = if a.length = 58 then some a.toList else none) ∧
    (¬ (String.mk (List.replicate 58 'a')).toList.Nodup ∧
      ∃ A, NewAlphabet (String.mk (List.replicate 58 'a')) = .ok A) ∧
    ("é23456789ABCDEFGHJKLMNPQRSTUVWXYZabcdefghijkmnopqrstuvwxyz".utf8ByteSize = 59 ∧
      ∃ A, NewAlphabet "é23456789ABCDEFGHJKLMNPQRSTUVWXYZabcdefghijkmnopqrstuvwxyz" = .ok A) ∧
    ("é3456789ABCDEFGHJKLMNPQRSTUVWXYZabcdefghijkmnopqrstuvwxyz".utf8ByteSize = 58 ∧
      ∃ e, NewAlphabet "é3456789ABCDEFGHJKLMNPQRSTUVWXYZabcdefghijkmnopqrstuvwxyz" = .error e) := by
  have hlen : a.length = a.toList.length := rfl
  refine ⟨?_, ?_, ⟨by decide, ?_⟩, ⟨by decide, ?_⟩, ⟨by decide, ?_⟩⟩
  · constructor
    · rintro ⟨e, he⟩ h58
      obtain ⟨A, hA, -⟩ := NewAlphabet_ok a (hlen ▸ h58)
      rw [hA] at he
      cases he
    · intro h
      exact ⟨_, NewAlphabet_abort a (hlen ▸ h)⟩
  · by_cases h : a.length = 58
    · obtain ⟨A, hA, hT⟩ := NewAlphabet_ok a (hlen ▸ h)
      rw [hA, if_pos h, ← hT]
      rfl
    · rw [NewAlphabet_abort a (hlen ▸ h), if_neg h]
      rfl
  · obtain ⟨A, hA, -⟩ := NewAlphabet_ok (String.mk (List.replicate 58 'a')) (by decide)
    exact ⟨A, hA⟩
  · obtain ⟨A, hA, -⟩ := NewAlphabet_ok
      "é23456789ABCDEFGHJKLMNPQRSTUVWXYZabcdefghijkmnopqrstuvwxyz" (by decide)
    exact ⟨A, hA⟩
  · exact ⟨_, NewAlphabet_abort _ (by decide)⟩

/-- C11: each of the four predefined alphabets is built from a string of exactly 58
code points, so its construction does not abort, and its 58 table characters, the
code points of that string, are pairwise distinct. -/
theorem predefined_alphabets_valid :
    ("123456789ABCDEFGHJKLMNPQRSTUVWXYZabcdefghijkmnopqrstuvwxyz".length = 58 ∧
      ∃ A, BitcoinAlphabet = .ok A ∧ A.encodeTable.length = 58 ∧ A.encodeTable.Nodup ∧
        A.encodeTable = "123456789ABCDEFGHJKLMNPQRSTUVWXYZabcdefghijkmnopqrstuvwxyz".toList) ∧
    ("123456789ABCDEFGHJKLMNPQRSTUVWXYZabcdefghijkmnopqrstuvwxyz".length = 58 ∧
      ∃ A, IPFSAlphabet = .ok A ∧ A.encodeTable.length = 58 ∧ A.encodeTable.Nodup ∧
        A.encodeTable = "123456789ABCDEFGHJKLMNPQRSTUVWXYZabcdefghijkmnopqrstuvwxyz".toList) ∧
    ("123456789abcdefghijkmnopqrstuvwxyzABCDEFGHJKLMNPQRSTUVWXYZ".length = 58 ∧
      ∃ A, FlickrAlphabet = .ok A ∧ A.encodeTable.length = 58 ∧ A.encodeTable.Nodup ∧
        A.encodeTable = "123456789abcdefghijkmnopqrstuvwxyzABCDEFGHJKLMNPQRSTUVWXYZ".toList) ∧
    ("rpshnaf39wBUDNEGHJKLM4PQRST7VWXYZ2bcdeCg65jkm8oFqi1tuvAxyz".length = 58 ∧
      ∃ A, RippleAlphabet = .ok A ∧ A.encodeTable.length = 58 ∧ A.encodeTable.Nodup ∧
        A.encodeTable = "rpshnaf39wBUDNEGHJKLM4PQRST7VWXYZ2bcdeCg65jkm8oFqi1tuvAxyz".toList) := by
  refine ⟨⟨by decide, ?_⟩, ⟨by decide, ?_⟩, ⟨by decide, ?_⟩, ⟨by decide, ?_⟩⟩
  · obtain ⟨A, h1, h2⟩ := NewAlphabet_ok
      "123456789ABCDEFGHJKLMNPQRSTUVWXYZabcdefghijkmnopqrstuvwxyz" (by decide)
    exact ⟨A, h1, A.size_eq, by rw [h2]; decide, h2⟩
  · obtain ⟨A, h1, h2⟩ := NewAlphabet_ok
      "123456789ABCDEFGHJKLMNPQRSTUVWXYZabcdefghijkmnopqrstuvwxyz" (by decide)
    exact ⟨A, h1, A.size_eq, by rw [h2]; decide, h2⟩
  · obtain ⟨A, h1, h2⟩ := NewAlphabet_ok
      "123456789abcdefghijkmnopqrstuvwxyzABCDEFGHJKLMNPQRSTUVWXYZ" (by decide)
    exact ⟨A, h1, A.size_eq, by rw [h2]; decide, h2⟩
  · obtain ⟨A, h1, h2⟩ := NewAlphabet_ok
      "rpshnaf39wBUDNEGHJKLM4PQRST7VWXYZ2bcdeCg65jkm8oFqi1tuvAxyz" (by decide)
    exact ⟨A, h1, A.size_eq, by rw [h2]; decide, h2⟩

/-- C12 as stated fails: the table of `FlickrAlphabet` is not the table of
`BitcoinAlphabet`; at index 9 the first holds `a` and the second `A`. -/
theorem Flickr_table_ne_Bitcoin_table :
    ∃ A F, BitcoinAlphabet = .ok A ∧ FlickrAlphabet = .ok F ∧
      A.encodeTable[9]? = some 'A' ∧ F.encodeTable[9]? = some 'a' ∧
      A.encodeTable ≠ F.encodeTable :=
  ⟨copyTable "123456789ABCDEFGHJKLMNPQRSTUVWXYZabcdefghijkmnopqrstuvwxyz".toList,
    copyTable "123456789abcdefghijkmnopqrstuvwxyzABCDEFGHJKLMNPQRSTUVWXYZ".toList,
    rfl, rfl, by decide, by decide, by decide⟩

/-- C12 amended: two of the four predefined alphabets have equal tables, those of
`BitcoinAlphabet` and `IPFSAlphabet`; the tables of `FlickrAlphabet` and of
`RippleAlphabet` differ from that one and from each other. -/
theorem predefined_alphabets_compared :
    ∃ A I F R, BitcoinAlphabet = .ok A ∧ IPFSAlphabet = .ok I ∧ FlickrAlphabet = .ok F ∧
      RippleAlphabet = .ok R ∧
      A.encodeTable = I.encodeTable ∧ F.encodeTable ≠ A.encodeTable ∧
      R.encodeTable ≠ A.encodeTable ∧ R.encodeTable ≠ F.encodeTable :=
  ⟨copyTable "123456789ABCDEFGHJKLMNPQRSTUVWXYZabcdefghijkmnopqrstuvwxyz".toList,
    copyTable "123456789ABCDEFGHJKLMNPQRSTUVWXYZabcdefghijkmnopqrstuvwxyz".toList,
    copyTable "123456789abcdefghijkmnopqrstuvwxyzABCDEFGHJKLMNPQRSTUVWXYZ".toList,
    copyTable "rpshnaf39wBUDNEGHJKLM4PQRST7VWXYZ2bcdeCg65jkm8oFqi1tuvAxyz".toList,
    rfl, rfl, rfl, rfl, rfl, by decide, by decide, by decide⟩

/-- C14: a 58-character string with a repeated character is accepted by `NewAlphabet`,
and with its table `Decode(Encode(b, A), A)` succeeds but returns bytes other than `b`:
here `A[0] = A[1]` and `b = [1]`, whose encoding is read back as one zero symbol. -/
theorem duplicate_alphabet_lossy :
    "113456789ABCDEFGHJKLMNPQRSTUVWXYZabcdefghijkmnopqrstuvwxyz".length = 58 ∧
    ¬ "113456789ABCDEFGHJKLMNPQRSTUVWXYZabcdefghijkmnopqrstuvwxyz".toList.Nodup ∧
    ∃ A, NewAlphabet "113456789ABCDEFGHJKLMNPQRSTUVWXYZabcdefghijkmnopqrstuvwxyz" = .ok A ∧
      A.encodeTable[0]? = A.encodeTable[1]? ∧
      Encode [1] A = .ok "1" ∧ Decode "1" A = .ok (some [0], none) ∧ [0] ≠ [1] :=
  ⟨by decide, by decide,
    copyTable "113456789ABCDEFGHJKLMNPQRSTUVWXYZabcdefghijkmnopqrstuvwxyz".toList,
    rfl, by decide, rfl, rfl, by decide⟩

/-! ## Encoding a decoding -/

theorem digitOf_lt (alphabet : Alphabet) (c : Char) (hc : c ∈ alphabet.encodeTable) :
    digitOf alphabet c < 58 := by
  rw [← alphabet.size_eq]
  exact List.indexOf_lt_length.mpr hc

theorem symbol_digitOf (alphabet : Alphabet) (c : Char) (hc : c ∈ alphabet.encodeTable) :
    alphabet.symbol (digitOf alphabet c) = c := by
  have hlt : digitOf alphabet c < alphabet.encodeTable.length := List.indexOf_lt_length.mpr hc
  rw [symbol_eq_getElem alphabet _ hlt]
  exact List.getElem_indexOf hlt

theorem digitOf_ne_zero (alphabet : Alphabet) (c : Char) (hc : c ∈ alphabet.encodeTable)
    (hz : c ≠ alphabet.zero) : digitOf alphabet c ≠ 0 := by
  intro h0
  have h := symbol_digitOf alphabet c hc
  rw [h0, ← zero_eq_symbol] at h
  exact hz h.symm

theorem map_symbol_digitOf (alphabet : Alphabet) (cs : List Char)
    (hcs : ∀ c ∈ cs, c ∈ alphabet.encodeTable) :
    (cs.map (digitOf alphabet)).map alphabet.symbol = cs := by
  induction cs with
  | nil => rfl
  | cons c rest ih =>
    rw [List.map_cons, List.map_cons, symbol_digitOf alphabet c (hcs c (List.mem_cons_self _ _)),
      ih (fun x hx => hcs x (List.mem_cons_of_mem _ hx))]

theorem map_digitOf_head (alphabet : Alphabet) (cs : List Char)
    (hcs : ∀ c ∈ cs, c ∈ alphabet.encodeTable) (hhead : cs.head? ≠ some alphabet.zero) :
    (cs.map (digitOf alphabet)).head? ≠ some 0 := by
  cases cs with
  | nil => simp
  | cons c rest =>
    have hc0 : c ≠ alphabet.zero := by simpa using hhead
    have := digitOf_ne_zero alphabet c (hcs c (List.mem_cons_self _ _)) hc0
    simpa using this

/-- Encoding the bytes that `Decode` returns gives the string back. -/
theorem Encode_DecodeW (bits : Nat) (hbits : 32 ≤ bits) (alphabet : Alphabet) (s : String)
    (hs : ∀ c ∈ s.toList, c ∈ alphabet.encodeTable) :
    ∃ b, DecodeW bits s alphabet = .ok (some b, none) ∧ (∀ x ∈ b, x < 256) ∧
      Encode b alphabet = .ok s := by
  obtain ⟨z, rest, hsplit, hhead⟩ := split_zero_symbols alphabet.zero s.toList
  have hrest : ∀ c ∈ rest, c ∈ alphabet.encodeTable := by
    intro c hc
    exact hs c (by rw [hsplit]; exact List.mem_append_right _ hc)
  have hdig : ∀ d ∈ rest.map (digitOf alphabet), d < 58 := by
    intro d hd
    obtain ⟨c, hc, rfl⟩ := List.mem_map.mp hd
    exact digitOf_lt alphabet c (hrest c hc)
  have hbytes := beDigits_lt 256 (by decide) (beValue 58 (rest.map (digitOf alphabet)))
  refine ⟨_, DecodeW_ok bits hbits alphabet s z rest hsplit hhead hrest, ?_, ?_⟩
  · intro x hx
    rcases List.mem_append.mp hx with h | h
    · rw [List.eq_of_mem_replicate h]; decide
    · exact hbytes x h
  · rw [Encode_eq alphabet z _ (beDigits_head 256 _) hbytes, beValue_beDigits,
      beDigits_beValue 58 (by decide) _ hdig (map_digitOf_head alphabet rest hrest hhead),
      map_symbol_digitOf alphabet rest hrest, ← hsplit]
    rfl

/-- Every character of an encoding is a table character. -/
theorem Encode_chars (alphabet : Alphabet) (b : List Nat) (hb : ∀ x ∈ b, x < 256) :
    ∃ s, Encode b alphabet = .ok s ∧ ∀ c ∈ s.toList, c ∈ alphabet.encodeTable := by
  obtain ⟨z, rest, hsplit, hhead⟩ := split_zero_bytes b
  subst hsplit
  have hrest : ∀ x ∈ rest, x < 256 := fun x hx => hb x (List.mem_append_right _ hx)
  refine ⟨_, Encode_eq alphabet z rest hhead hrest, ?_⟩
  intro c hc
  have hc2 : c ∈ List.replicate z alphabet.zero
      ++ (beDigits 58 (beValue 256 rest)).map alphabet.symbol := hc
  rcases List.mem_append.mp hc2 with h | h
  · rw [List.eq_of_mem_replicate h]
    exact zero_mem alphabet
  · obtain ⟨d, hd, rfl⟩ := List.mem_map.mp h
    exact symbol_mem alphabet d (beDigits_lt 58 (by decide) _ d hd)

/-- C13: for a string `s` all of whose characters occur in an alphabet `A` with
pairwise distinct characters, `Encode(Decode(s, A), A) = s`; together with the
decode-after-encode round trip, `Encode` and `Decode` are mutually inverse between
byte sequences and strings over the 58 characters of `A`. -/
theorem Encode_Decode_roundtrip (A : Alphabet) (hA : A.encodeTable.Nodup) (s : String)
    (hs : ∀ c ∈ s.toList, c ∈ A.encodeTable) :
    (∃ b, Decode s A = .ok (some b, none) ∧ (∀ x ∈ b, x < 256) ∧ Encode b A = .ok s) ∧
    (∀ b : List Nat, (∀ x ∈ b, x < 256) →
      ∃ t, Encode b A = .ok t ∧ (∀ c ∈ t.toList, c ∈ A.encodeTable) ∧
        Decode t A = .ok (some b, none)) := by
  refine ⟨Encode_DecodeW 64 (by decide) A s hs, ?_⟩
  intro b hb
  obtain ⟨t, ht, hchars⟩ := Encode_chars A b hb
  obtain ⟨t2, ht2, hdec⟩ := DecodeW_Encode 64 (by decide) A hA b hb
  rw [ht] at ht2
  cases ht2
  exact ⟨t, ht, hchars, hdec⟩

/-- Witness of C13 at the string `"11zz"` and the Flickr table. -/
theorem Encode_Decode_roundtrip_witness :
    ∃ A, FlickrAlphabet = .ok A ∧ A.encodeTable.Nodup ∧
      (∀ c ∈ "11zz".toList, c ∈ A.encodeTable) ∧
      ((∃ b, Decode "11zz" A = .ok (some b, none) ∧ (∀ x ∈ b, x < 256) ∧
        Encode b A = .ok "11zz") ∧
      (∀ b : List Nat, (∀ x ∈ b, x < 256) →
        ∃ t, Encode b A = .ok t ∧ (∀ c ∈ t.toList, c ∈ A.encodeTable) ∧
          Decode t A = .ok (some b, none))) :=
  ⟨copyTable "123456789abcdefghijkmnopqrstuvwxyzABCDEFGHJKLMNPQRSTUVWXYZ".toList, rfl,
    by decide, by decide,
    Encode_Decode_roundtrip
      (copyTable "123456789abcdefghijkmnopqrstuvwxyzABCDEFGHJKLMNPQRSTUVWXYZ".toList)
      (by decide) "11zz" (by decide)⟩

/-- C17: for every byte sequence and every alphabet, also one with repeated
characters, every character of `Encode(b, A)` is one of the 58 table characters, so
`Decode(Encode(b, A), A)` returns a nil error. -/
theorem Decode_Encode_no_error (b : List Nat) (A : Alphabet) (hb : ∀ x ∈ b, x < 256) :
    ∃ s, Encode b A = .ok s ∧ (∀ c ∈ s.toList, c ∈ A.encodeTable) ∧
      ∃ b2, Decode s A = .ok (some b2, none) := by
  obtain ⟨s, hs, hchars⟩ := Encode_chars A b hb
  refine ⟨s, hs, hchars, ?_⟩
  rcases DecodeW_total 64 (by decide) A s with ⟨⟨c, hc, hct⟩, -⟩ | ⟨-, bytes, h⟩
  · exact absurd (hchars c hc) hct
  · exact ⟨bytes, h⟩

/-- Witness of C17 at the bytes `[1]` and a table with `A[0] = A[1]`, where the
decoded bytes are `[0]`. -/
theorem Decode_Encode_no_error_witness :
    (∀ x ∈ [1], x < 256) ∧
    ∃ A, NewAlphabet "113456789ABCDEFGHJKLMNPQRSTUVWXYZabcdefghijkmnopqrstuvwxyz" = .ok A ∧
      ∃ s, Encode [1] A = .ok s ∧ (∀ c ∈ s.toList, c ∈ A.encodeTable) ∧
        ∃ b2, Decode s A = .ok (some b2, none) :=
  ⟨by decide,
    copyTable "113456789ABCDEFGHJKLMNPQRSTUVWXYZabcdefghijkmnopqrstuvwxyz".toList, rfl,
    Decode_Encode_no_error [1]
      (copyTable "113456789ABCDEFGHJKLMNPQRSTUVWXYZabcdefghijkmnopqrstuvwxyz".toList)
      (by decide)⟩

/-! ## Bounds along the loops -/

theorem encodeInner_bounds (e : Int) :
    ∀ (j c : Nat) (out : List Nat), c ≤ 255 → (∀ x ∈ out, x < 58) →
      (∀ t ∈ encodeInnerTrace e j c out,
        t.outputIdx < j ∧ t.outputIdx < out.length ∧ t.carry ≤ 255 ∧ t.cell < 58 ∧
          t.sum = t.carry + 256 * t.cell) ∧
      (∀ st, encodeInner e j c out = .ok st →
        st.1.length = out.length ∧ ∀ x ∈ st.1, x < 58) := by
  intro j
  induction j with
  | zero =>
    intro c out _ hout
    refine ⟨by simp [encodeInnerTrace], ?_⟩
    intro st hst
    rw [encodeInner] at hst
    split at hst
    · cases hst
    · cases hst
      exact ⟨rfl, hout⟩
  | succ j ih =>
    intro c out hc hout
    rw [encodeInnerTrace, encodeInner]
    by_cases hcond : c ≠ 0 ∨ (j : Int) > e
    · rw [if_pos hcond, if_pos hcond]
      cases hcell : out[j]? with
      | none =>
        refine ⟨by simp, ?_⟩
        intro st hst
        cases hst
      | some cell =>
        have hlt : cell < 58 := hout cell (List.getElem?_mem hcell)
        have hj : j < out.length := by
          by_contra hge
          rw [List.getElem?_eq_none (by omega)] at hcell
          cases hcell
        have hwrap : (c + 256 * cell) % 2 ^ 32 = c + 256 * cell := by omega
        have hset : ∀ x ∈ out.set j ((c + 256 * cell) % 58 % 256), x < 58 := by
          intro x hx
          rcases List.mem_or_eq_of_mem_set hx with h | h
          · exact hout x h
          · omega
        obtain ⟨ih1, ih2⟩ := ih ((c + 256 * cell) / 58) (out.set j ((c + 256 * cell) % 58 % 256))
          (by omega) hset
        simp only [hwrap]
        refine ⟨?_, ?_⟩
        · intro t ht
          rcases List.mem_cons.mp ht with rfl | ht
          · exact ⟨by simp, hj, hc, hlt, rfl⟩
          · obtain ⟨h1, h2, h3⟩ := ih1 t ht
            rw [List.length_set] at h2
            exact ⟨by omega, h2, h3⟩
        · intro st hst
          obtain ⟨h1, h2⟩ := ih2 st hst
          rw [List.length_set] at h1
          exact ⟨h1, h2⟩
    · rw [if_neg hcond, if_neg hcond]
      refine ⟨by simp, ?_⟩
      intro st hst
      cases hst
      exact ⟨rfl, hout⟩

theorem encodeOuter_bounds (cap : Nat) :
    ∀ (bs : List Nat) (st : List Nat × Int), (∀ x ∈ bs, x < 256) →
      st.1.length = cap → (∀ x ∈ st.1, x < 58) →
      ∀ t ∈ encodeOuterTrace cap bs st,
        t.outputIdx < cap ∧ t.carry ≤ 255 ∧ t.cell < 58 ∧ t.sum = t.carry + 256 * t.cell := by
  intro bs
  induction bs with
  | nil => intro st _ _ _ t ht; simp [encodeOuterTrace] at ht
  | cons x rest ih =>
    rintro ⟨out, e⟩ hbs hlen hcells t ht
    have hx : x ≤ 255 := by
      have := hbs x (List.mem_cons_self _ _)
      omega
    obtain ⟨h1, h2⟩ := encodeInner_bounds e cap x out hx hcells
    rw [encodeOuterTrace] at ht
    rcases List.mem_append.mp ht with ht | ht
    · obtain ⟨a1, -, a3⟩ := h1 t ht
      exact ⟨a1, a3⟩
    · cases hres : encodeInner e cap x out with
      | error err =>
        rw [hres] at ht
        simp at ht
      | ok st2 =>
        rw [hres] at ht
        obtain ⟨b1, b2⟩ := h2 st2 hres
        exact ih st2 (fun y hy => hbs y (List.mem_cons_of_mem _ hy))
          (b1.trans hlen) b2 t ht

theorem decodeInner_bounds (bits : Nat) (hbits : 32 ≤ bits) (e : Int) :
    ∀ (j c : Nat) (out : List Nat), c ≤ 57 → (∀ x ∈ out, x < 256) →
      (∀ t ∈ decodeInnerTrace bits e j (c : Int) out,
        t.outputIdx < j ∧ t.outputIdx < out.length ∧ 0 ≤ t.carry ∧ t.carry ≤ 57 ∧
          t.cell < 256 ∧ t.sum = t.carry + 58 * (t.cell : Int)) ∧
      (∀ st, decodeInner bits e j (c : Int) out = .ok st →
        st.1.length = out.length ∧ ∀ x ∈ st.1, x < 256) := by
  intro j
  induction j with
  | zero =>
    intro c out _ hout
    refine ⟨by simp [decodeInnerTrace], ?_⟩
    intro st hst
    rw [decodeInner] at hst
    split at hst
    · cases hst
    · cases hst
      exact ⟨rfl, hout⟩
  | succ j ih =>
    intro c out hc hout
    rw [decodeInnerTrace, decodeInner]
    by_cases hcond : (c : Int) ≠ 0 ∨ (j : Int) > e
    · rw [if_pos hcond, if_pos hcond]
      cases hcell : out[j]? with
      | none =>
        refine ⟨by simp, ?_⟩
        intro st hst
        cases hst
      | some cell =>
        have hlt : cell < 256 := hout cell (List.getElem?_mem hcell)
        have hj : j < out.length := by
          by_contra hge
          rw [List.getElem?_eq_none (by omega)] at hcell
          cases hcell
        have hwrap : wrapInt bits ((c : Int) + 58 * (cell : Int))
            = ((c + 58 * cell : Nat) : Int) := by
          rw [wrapInt_eq bits hbits _ (by omega) (by omega)]
          push_cast
          rfl
        have hdiv : Int.tdiv ((c + 58 * cell : Nat) : Int) 256
            = (((c + 58 * cell) / 256 : Nat) : Int) := (Int.ofNat_tdiv _ 256).symm
        have hmod : ((Int.tmod ((c + 58 * cell : Nat) : Int) 256) % 256).toNat
            = (c + 58 * cell) % 256 := by
          rw [show Int.tmod ((c + 58 * cell : Nat) : Int) 256
            = (((c + 58 * cell) % 256 : Nat) : Int) from (Int.ofNat_tmod _ 256).symm]
          omega
        have hset : ∀ x ∈ out.set j ((c + 58 * cell) % 256), x < 256 := by
          intro x hx
          rcases List.mem_or_eq_of_mem_set hx with h | h
          · exact hout x h
          · omega
        obtain ⟨ih1, ih2⟩ := ih ((c + 58 * cell) / 256) (out.set j ((c + 58 * cell) % 256))
          (by omega) hset
        simp only [hwrap, hdiv, hmod]
        refine ⟨?_, ?_⟩
        · intro t ht
          rcases List.mem_cons.mp ht with rfl | ht
          · exact ⟨by simp, hj, by simp, by simpa using hc, hlt, rfl⟩
          · obtain ⟨h1, h2, h3⟩ := ih1 t ht
            rw [List.length_set] at h2
            exact ⟨by omega, h2, h3⟩
        · intro st hst
          obtain ⟨h1, h2⟩ := ih2 st hst
          rw [List.length_set] at h1
          exact ⟨h1, h2⟩
    · rw [if_neg hcond, if_neg hcond]
      refine ⟨by simp, ?_⟩
      intro st hst
      cases hst
      exact ⟨rfl, hout⟩

theorem findSymbol_cases (alphabet : Alphabet) (c : Char) :
    findSymbol c alphabet.encodeTable 0 = -1 ∨
      ∃ d : Nat, d ≤ 57 ∧ findSymbol c alphabet.encodeTable 0 = (d : Int) := by
  rw [findSymbol_eq]
  by_cases hc : c ∈ alphabet.encodeTable
  · right
    rw [if_pos hc, Nat.zero_add]
    have := digitOf_lt alphabet c hc
    exact ⟨digitOf alphabet c, by omega, rfl⟩
  · left
    rw [if_neg hc]

theorem decodeOuter_bounds (bits : Nat) (hbits : 32 ≤ bits) (alphabet : Alphabet) (cap : Nat) :
    ∀ (cs : List Char) (st : List Nat × Int),
      st.1.length = cap → (∀ x ∈ st.1, x < 256) →
      ∀ t ∈ decodeOuterTrace bits alphabet.encodeTable cap cs st,
        t.outputIdx < cap ∧ 0 ≤ t.carry ∧ t.carry ≤ 57 ∧ t.cell < 256 ∧
          t.sum = t.carry + 58 * (t.cell : Int) := by
  intro cs
  induction cs with
  | nil => intro st _ _ t ht; simp [decodeOuterTrace] at ht
  | cons c rest ih =>
    rintro ⟨out, e⟩ hlen hcells t ht
    rw [decodeOuterTrace] at ht
    rcases findSymbol_cases alphabet c with hbad | ⟨d, hd, hfind⟩
    · simp [hbad] at ht
    · have hne : ¬ ((d : Int) = -1) := by omega
      simp only [hfind, if_neg hne] at ht
      obtain ⟨h1, h2⟩ := decodeInner_bounds bits hbits e cap d out hd hcells
      rcases List.mem_append.mp ht with ht | ht
      · obtain ⟨a1, -, a3⟩ := h1 t ht
        exact ⟨a1, a3⟩
      · cases hres : decodeInner bits e cap (d : Int) out with
        | error err =>
          rw [hres] at ht
          simp at ht
        | ok st2 =>
          rw [hres] at ht
          obtain ⟨b1, b2⟩ := h2 st2 hres
          exact ih st2 (b1.trans hlen) b2 t ht

/-! ## The machine arithmetic is exact -/

theorem encodeOuter_eq_exact (cap : Nat) :
    ∀ (bs : List Nat) (st : List Nat × Int), (∀ x ∈ bs, x < 256) → (∀ x ∈ st.1, x < 58) →
      encodeOuter cap bs st = encodeOuterExact cap bs st := by
  intro bs
  induction bs with
  | nil => intro st _ _; rfl
  | cons x rest ih =>
    rintro ⟨out, e⟩ hbs hcells
    have hx : x < 256 := hbs x (List.mem_cons_self _ _)
    rw [encodeOuter, encodeOuterExact, ← encodeInner_eq_radixInner e cap x out hx hcells]
    cases hres : encodeInner e cap x out with
    | error err => rfl
    | ok st2 =>
      obtain ⟨-, h2⟩ := (encodeInner_bounds e cap x out (by omega) hcells).2 st2 hres
      exact ih st2 (fun y hy => hbs y (List.mem_cons_of_mem _ hy)) h2

theorem Encode_eq_exact (b : List Nat) (alphabet : Alphabet) (hb : ∀ x ∈ b, x < 256) :
    Encode b alphabet = EncodeExact b alphabet := by
  have hdrop : ∀ x ∈ b.drop (countZeroBytes b), x < 256 :=
    fun x hx => hb x (List.mem_of_mem_drop hx)
  have hzero : ∀ x ∈ (List.replicate (b.length * 138 / 100 + 1) 0,
      ((b.length * 138 / 100 + 1 : Nat) : Int) - 1).1, x < 58 := by
    intro x hx
    rw [List.eq_of_mem_replicate hx]
    decide
  have h := encodeOuter_eq_exact (b.length * 138 / 100 + 1) _ _ hdrop hzero
  unfold Encode EncodeExact
  simp only [h]

theorem decodeOuter_eq_exact (bits : Nat) (hbits : 32 ≤ bits) (alphabet : Alphabet)
    (cap : Nat) :
    ∀ (cs : List Char) (st : List Nat × Int), (∀ x ∈ st.1, x < 256) →
      decodeOuter bits alphabet.encodeTable cap cs st
        = decodeOuterExact alphabet.encodeTable cap cs st := by
  intro cs
  induction cs with
  | nil => intro st _; rfl
  | cons c rest ih =>
    rintro ⟨out, e⟩ hcells
    rw [decodeOuter, decodeOuterExact]
    rcases findSymbol_cases alphabet c with hbad | ⟨d, hd, hfind⟩
    · simp [hbad]
    · have hne : ¬ ((d : Int) = -1) := by omega
      simp only [hfind, if_neg hne, Int.toNat_ofNat]
      rw [← decodeInner_eq_radixInner bits hbits e cap d out (by omega) hcells]
      cases hres : decodeInner bits e cap (d : Int) out with
      | error err => rfl
      | ok st2 =>
        obtain ⟨-, h2⟩ := (decodeInner_bounds bits hbits e cap d out hd hcells).2 st2 hres
        exact ih st2 h2

theorem DecodeW_eq_exact (bits : Nat) (hbits : 32 ≤ bits) (s : String) (alphabet : Alphabet) :
    DecodeW bits s alphabet = DecodeExact s alphabet := by
  have hzero : ∀ x ∈ (List.replicate (s.toList.length * 733 / 1000 + 1) 0,
      ((s.toList.length * 733 / 1000 + 1 : Nat) : Int) - 1).1, x < 256 := by
    intro x hx
    rw [List.eq_of_mem_replicate hx]
    decide
  have h := decodeOuter_eq_exact bits hbits alphabet (s.toList.length * 733 / 1000 + 1)
    (s.toList.drop (countZeroSymbols alphabet.zero s.toList)) _ hzero
  unfold DecodeW DecodeExact
  simp only [h]

/-! ## No runtime fault -/

theorem encodeOuter_never_faults (cap : Nat) (bs : List Nat) (hbs : ∀ x ∈ bs, x < 256)
    (hcap : 256 ^ bs.length ≤ 58 ^ cap) :
    ∃ out e, encodeOuter cap bs (List.replicate cap 0, (cap : Int) - 1) = .ok (out, e) ∧
      -1 ≤ e ∧ e < cap ∧ out.length = cap ∧ ∀ d ∈ out, d < 58 := by
  have hlt : beValueFrom 256 0 bs < 58 ^ cap := lt_of_lt_of_le (beValue_lt 256 bs hbs) hcap
  obtain ⟨k2, hk2, hout⟩ := encodeOuter_spec cap bs 0 cap hbs (by simp) hlt
  rw [beDigits_zero, List.append_nil] at hout
  refine ⟨_, _, hout, by omega, by omega, ?_, ?_⟩
  · simp [beDigits]
    omega
  · intro d hd
    rcases List.mem_append.mp hd with h | h
    · rw [List.eq_of_mem_replicate h]; decide
    · exact beDigits_lt 58 (by decide) _ d h

theorem decodeOuter_never_faults (bits : Nat) (hbits : 32 ≤ bits) (alphabet : Alphabet)
    (cap : Nat) (cs : List Char) (hcap : 58 ^ cs.length ≤ 256 ^ cap) :
    decodeOuter bits alphabet.encodeTable cap cs (List.replicate cap 0, (cap : Int) - 1)
        = .ok (.error Error_InvalidBase58String) ∨
      ∃ out e, decodeOuter bits alphabet.encodeTable cap cs
          (List.replicate cap 0, (cap : Int) - 1) = .ok (.ok (out, e)) ∧
        -1 ≤ e ∧ e < cap ∧ out.length = cap ∧ ∀ d ∈ out, d < 256 := by
  have hbound : ∀ good : List Char, good.length ≤ cs.length →
      (∀ c ∈ good, c ∈ alphabet.encodeTable) →
      beValueFrom 58 0 (good.map (digitOf alphabet)) < 256 ^ cap := by
    intro good hlen hgood
    have hdig : ∀ x ∈ good.map (digitOf alphabet), x < 58 := by
      intro x hx
      obtain ⟨c, hc, rfl⟩ := List.mem_map.mp hx
      exact digitOf_lt alphabet c (hgood c hc)
    have h1 := beValue_lt 58 _ hdig
    rw [List.length_map] at h1
    exact lt_of_lt_of_le h1 (le_trans (Nat.pow_le_pow_right (by decide) hlen) hcap)
  by_cases hbad : ∃ c ∈ cs, c ∉ alphabet.encodeTable
  · left
    obtain ⟨good, bad, tail, h1, h2, h3⟩ := split_first_bad _ cs hbad
    obtain ⟨k2, -, hout⟩ := decodeOuter_spec bits hbits alphabet cap (bad :: tail) good 0 cap
      h2 (by simp) (hbound good (by rw [h1]; simp) h2)
    rw [beDigits_zero, List.append_nil] at hout
    have hfind : findSymbol bad alphabet.encodeTable 0 = -1 := by
      rw [findSymbol_eq, if_neg h3]
    rw [h1, hout, decodeOuter]
    simp only [hfind, if_true]
  · right
    push_neg at hbad
    obtain ⟨k2, hk2, hout⟩ := decodeOuter_spec bits hbits alphabet cap [] cs 0 cap
      hbad (by simp) (hbound cs (le_refl _) hbad)
    rw [beDigits_zero, List.append_nil, List.append_nil] at hout
    rw [decodeOuter] at hout
    refine ⟨_, _, hout, by omega, by omega, ?_, ?_⟩
    · simp [beDigits]
      omega
    · intro d hd
      rcases List.mem_append.mp hd with h | h
      · rw [List.eq_of_mem_replicate h]; decide
      · exact beDigits_lt 256 (by decide) _ d h

/-- C15: `Encode` never fails.  With `capacity = len(b)*138/100 + 1` no read or write
of the digit buffer is out of range, which in this embedding is the fault
`indexOutOfRange`: the call returns a string, every index in the log of the inner loop
is below `capacity`, and after any number of input bytes the outer loop has a state
with `-1 ≤ outputReverseEnd < capacity`, a buffer of `capacity` cells, and every cell,
the digits later used to index the 58-entry table, below 58. -/
theorem Encode_never_faults (b : List Nat) (A : Alphabet) (hb : ∀ x ∈ b, x < 256) :
    (∃ s, Encode b A = .ok s) ∧
    (∀ t ∈ EncodeTrace b, t.outputIdx < b.length * 138 / 100 + 1) ∧
    (∀ i : Nat, ∃ output outputReverseEnd,
      encodeOuter (b.length * 138 / 100 + 1) ((b.drop (countZeroBytes b)).take i)
          (List.replicate (b.length * 138 / 100 + 1) 0,
            ((b.length * 138 / 100 + 1 : Nat) : Int) - 1)
        = .ok (output, outputReverseEnd) ∧
      -1 ≤ outputReverseEnd ∧ outputReverseEnd < ((b.length * 138 / 100 + 1 : Nat) : Int) ∧
      output.length = b.length * 138 / 100 + 1 ∧ ∀ d ∈ output, d < 58) := by
  have hdrop : ∀ x ∈ b.drop (countZeroBytes b), x < 256 :=
    fun x hx => hb x (List.mem_of_mem_drop hx)
  refine ⟨?_, ?_, ?_⟩
  · obtain ⟨s, hs, -⟩ := Encode_chars A b hb
    exact ⟨s, hs⟩
  · intro t ht
    have h := encodeOuter_bounds (b.length * 138 / 100 + 1) (b.drop (countZeroBytes b))
      (List.replicate (b.length * 138 / 100 + 1) 0, ((b.length * 138 / 100 + 1 : Nat) : Int) - 1)
      hdrop (List.length_replicate _ _)
      (fun x hx => by rw [List.eq_of_mem_replicate hx]; decide) t ht
    exact h.1
  · intro i
    apply encodeOuter_never_faults
    · intro x hx
      exact hdrop x (List.mem_of_mem_take hx)
    · refine le_trans (Nat.pow_le_pow_right (by decide) ?_) (encode_capacity b.length)
      exact le_trans (List.length_take_le' _ _) (by rw [List.length_drop]; omega)

/-- Witness of C15 at the bytes `[0, 255, 255, 255]` and the Bitcoin table. -/
theorem Encode_never_faults_witness :
    (∀ x ∈ [0, 255, 255, 255], x < 256) ∧
    ∃ A, BitcoinAlphabet = .ok A ∧
      (∃ s, Encode [0, 255, 255, 255] A = .ok s) ∧
      (∀ t ∈ EncodeTrace [0, 255, 255, 255], t.outputIdx < [0, 255, 255, 255].length * 138 / 100 + 1) :=
  ⟨by decide,
    copyTable "123456789ABCDEFGHJKLMNPQRSTUVWXYZabcdefghijkmnopqrstuvwxyz".toList, rfl,
    (Encode_never_faults [0, 255, 255, 255]
      (copyTable "123456789ABCDEFGHJKLMNPQRSTUVWXYZabcdefghijkmnopqrstuvwxyz".toList)
      (by decide)).1,
    (Encode_never_faults [0, 255, 255, 255]
      (copyTable "123456789ABCDEFGHJKLMNPQRSTUVWXYZabcdefghijkmnopqrstuvwxyz".toList)
      (by decide)).2.1⟩

/-- C16: `Decode` never indexes its byte buffer out of range.  With
`capacity = (number of code points of s)*733/1000 + 1` the call returns either the
invalid-symbol error or a result, never the fault `indexOutOfRange`; every index in the
log of the inner loop is below `capacity`, and after any number of characters the outer
loop has either returned the error or has a state with
`-1 ≤ outputReverseEnd < capacity` and a buffer of `capacity` bytes. -/
theorem Decode_never_faults (s : String) (A : Alphabet) :
    (Decode s A = .ok (none, some Error_InvalidBase58String) ∨
      ∃ bytes, Decode s A = .ok (some bytes, none)) ∧
    (∀ t ∈ DecodeTrace 64 s A, t.outputIdx < s.toList.length * 733 / 1000 + 1) ∧
    (∀ i : Nat,
      decodeOuter 64 A.encodeTable (s.toList.length * 733 / 1000 + 1)
          ((s.toList.drop (countZeroSymbols A.zero s.toList)).take i)
          (List.replicate (s.toList.length * 733 / 1000 + 1) 0,
            ((s.toList.length * 733 / 1000 + 1 : Nat) : Int) - 1)
        = .ok (.error Error_InvalidBase58String) ∨
      ∃ output outputReverseEnd,
        decodeOuter 64 A.encodeTable (s.toList.length * 733 / 1000 + 1)
            ((s.toList.drop (countZeroSymbols A.zero s.toList)).take i)
            (List.replicate (s.toList.length * 733 / 1000 + 1) 0,
              ((s.toList.length * 733 / 1000 + 1 : Nat) : Int) - 1)
          = .ok (.ok (output, outputReverseEnd)) ∧
        -1 ≤ outputReverseEnd ∧
        outputReverseEnd < ((s.toList.length * 733 / 1000 + 1 : Nat) : Int) ∧
        output.length = s.toList.length * 733 / 1000 + 1 ∧ ∀ d ∈ output, d < 256) := by
  refine ⟨?_, ?_, ?_⟩
  · rcases DecodeW_total 64 (by decide) A s with ⟨-, h⟩ | ⟨-, bytes, h⟩
    · exact Or.inl h
    · exact Or.inr ⟨bytes, h⟩
  · intro t ht
    have h := decodeOuter_bounds 64 (by decide) A (s.toList.length * 733 / 1000 + 1)
      (s.toList.drop (countZeroSymbols A.zero s.toList))
      (List.replicate (s.toList.length * 733 / 1000 + 1) 0,
        ((s.toList.length * 733 / 1000 + 1 : Nat) : Int) - 1)
      (List.length_replicate _ _)
      (fun x hx => by rw [List.eq_of_mem_replicate hx]; decide) t ht
    exact h.1
  · intro i
    apply decodeOuter_never_faults 64 (by decide)
    refine le_trans (Nat.pow_le_pow_right (by decide) ?_) (decode_capacity s.toList.length)
    exact le_trans (List.length_take_le' _ _) (by rw [List.length_drop]; omega)

/-- C18: the carry arithmetic never overflows its machine type.  In `Encode` every
cell read holds a value below 58, the `uint32` carry is at most 255 on entry to the
loop body and at most `255 + 256*57` after the multiply-add, below `2^32`.  In `Decode`,
for a Go `int` of at least 32 bits, the carry is between 0 and 57 on entry and at most
`57 + 58*255` after the multiply-add.  Hence both functions return what they return in
exact integer arithmetic. -/
theorem carry_never_overflows (b : List Nat) (s : String) (A : Alphabet) (bits : Nat)
    (hb : ∀ x ∈ b, x < 256) (hbits : 32 ≤ bits) :
    (∀ t ∈ EncodeTrace b,
      t.cell < 58 ∧ t.carry ≤ 255 ∧ t.sum = t.carry + 256 * t.cell ∧
        t.sum ≤ 255 + 256 * 57 ∧ t.sum < 2 ^ 32 ∧ t.sum % 2 ^ 32 = t.sum) ∧
    (∀ t ∈ DecodeTrace bits s A,
      t.cell < 256 ∧ 0 ≤ t.carry ∧ t.carry ≤ 57 ∧ t.sum = t.carry + 58 * (t.cell : Int) ∧
        0 ≤ t.sum ∧ t.sum ≤ 57 + 58 * 255 ∧ wrapInt bits t.sum = t.sum) ∧
    Encode b A = EncodeExact b A ∧
    DecodeW bits s A = DecodeExact s A ∧ Decode s A = DecodeExact s A := by
  refine ⟨?_, ?_, Encode_eq_exact b A hb, DecodeW_eq_exact bits hbits s A,
    DecodeW_eq_exact 64 (by decide) s A⟩
  · intro t ht
    have hdrop : ∀ x ∈ b.drop (countZeroBytes b), x < 256 :=
      fun x hx => hb x (List.mem_of_mem_drop hx)
    obtain ⟨-, h2, h3, h4⟩ := encodeOuter_bounds (b.length * 138 / 100 + 1)
      (b.drop (countZeroBytes b))
      (List.replicate (b.length * 138 / 100 + 1) 0, ((b.length * 138 / 100 + 1 : Nat) : Int) - 1)
      hdrop (List.length_replicate _ _)
      (fun x hx => by rw [List.eq_of_mem_replicate hx]; decide) t ht
    refine ⟨h3, h2, h4, by omega, by omega, by omega⟩
  · intro t ht
    obtain ⟨-, h2, h3, h4, h5⟩ := decodeOuter_bounds bits hbits A
      (s.toList.length * 733 / 1000 + 1)
      (s.toList.drop (countZeroSymbols A.zero s.toList))
      (List.replicate (s.toList.length * 733 / 1000 + 1) 0,
        ((s.toList.length * 733 / 1000 + 1 : Nat) : Int) - 1)
      (List.length_replicate _ _)
      (fun x hx => by rw [List.eq_of_mem_replicate hx]; decide) t ht
    refine ⟨h4, h2, h3, h5, by omega, by omega, ?_⟩
    exact wrapInt_eq bits hbits _ (by omega) (by omega)

/-- Witness of C18 at the bytes `[255, 255]`, the string `"zz"`, the Bitcoin table and
a 32-bit `int`. -/
theorem carry_never_overflows_witness :
    (∀ x ∈ [255, 255], x < 256) ∧ 32 ≤ 32 ∧
    ∃ A, BitcoinAlphabet = .ok A ∧
      (∀ t ∈ EncodeTrace [255, 255],
        t.cell < 58 ∧ t.carry ≤ 255 ∧ t.sum = t.carry + 256 * t.cell ∧
          t.sum ≤ 255 + 256 * 57 ∧ t.sum < 2 ^ 32 ∧ t.sum % 2 ^ 32 = t.sum) ∧
      (∀ t ∈ DecodeTrace 32 "zz" A,
        t.cell < 256 ∧ 0 ≤ t.carry ∧ t.carry ≤ 57 ∧ t.sum = t.carry + 58 * (t.cell : Int) ∧
          0 ≤ t.sum ∧ t.sum ≤ 57 + 58 * 255 ∧ wrapInt 32 t.sum = t.sum) ∧
      Encode [255, 255] A = EncodeExact [255, 255] A ∧
      DecodeW 32 "zz" A = DecodeExact "zz" A ∧ Decode "zz" A = DecodeExact "zz" A :=
  ⟨by decide, by decide,
    copyTable "123456789ABCDEFGHJKLMNPQRSTUVWXYZabcdefghijkmnopqrstuvwxyz".toList, rfl,
    carry_never_overflows [255, 255] "zz"
      (copyTable "123456789ABCDEFGHJKLMNPQRSTUVWXYZabcdefghijkmnopqrstuvwxyz".toList)
      32 (by decide) (by decide)⟩

end Base58
